import Mathlib

/-!
# Verification of the meal-planner workflow core

Shallow embedding of the grocery_shopping repository's core logic:
the ingredient collation engine (`src/collate.py`), the search/validate/refine
loop (`src/nodes/search.py`, `src/nodes/routing.py`), the user-interaction
stages (`src/nodes/processing.py`), the reminders commit stage
(`src/nodes/reminders_node.py`) and the interrupt registry
(`src/server/interrupts.py`).

Python strings are modelled as `List Char`.  Python floats (used only
inside `parse_amount`/`format_amount`) are modelled by `PyFloat`: exact
rationals plus the signed infinities and NaN; the numeric string grammar
covers exponents, digit-group underscores and `inf`/`infinity`/`nan`, and
`%.2g` includes its scientific-notation branch.  The binary rounding and
finite range of IEEE doubles (overflow to `inf` near 1.8e308, shortest
round-trip digits) and unicode digits are outside the model.  Exceptions
that Python propagates (the `OverflowError`/`ValueError` from
`int(float("inf"))`/`int(float("nan"))` inside `format_amount`, the
`IndexError` of `meal_options[0]` on an empty list) are modelled as `none`
results.
-/

/-- Python strings are modelled as lists of characters. -/
abbrev Str := List Char

/-- Convert a Lean string literal to the `Str` model. -/
def chars (x : String) : Str := x.data

/-- The ASCII whitespace characters (space, tab, newline, carriage return,
vertical tab, form feed) recognised by Python's `str.strip`, `str.split`
and the regex class `\s`. -/
def pySpace (c : Char) : Bool :=
  c.toNat = 32 || c.toNat = 9 || c.toNat = 10 || c.toNat = 13 ||
    c.toNat = 11 || c.toNat = 12

/-- Python `str.strip()` (ASCII whitespace). -/
def pyStrip (s : Str) : Str :=
  ((s.dropWhile pySpace).reverse.dropWhile pySpace).reverse

/-- Python `str.lower()` (ASCII case folding). -/
def pyLower (s : Str) : Str := s.map Char.toLower

/-- Python `str.startswith`. -/
def listStartsWith : Str → Str → Bool
  | _, [] => true
  | [], _ :: _ => false
  | c :: cs, p :: ps => c == p && listStartsWith cs ps

/-- Python `str.endswith`. -/
def listEndsWith (s pat : Str) : Bool :=
  listStartsWith s.reverse pat.reverse

/-- Python `needle in haystack` substring test. -/
def containsSub : Str → Str → Bool
  | [], pat => pat.isEmpty
  | c :: cs, pat => listStartsWith (c :: cs) pat || containsSub cs pat

/-- Recursion core of `eraseAllSub`; each step consumes at least one
character, so fuel equal to the string length is always sufficient. -/
def eraseAllSubFuel (pat : Str) : ℕ → Str → Str
  | _, [] => []
  | 0, s => s
  | fuel + 1, c :: rest =>
    if pat ≠ [] ∧ listStartsWith (c :: rest) pat then
      eraseAllSubFuel pat fuel ((c :: rest).drop pat.length)
    else
      c :: eraseAllSubFuel pat fuel rest

/-- Python `s.replace(pat, "")` for a non-empty pattern: erase every
(non-overlapping, left-to-right) occurrence of `pat`. -/
def eraseAllSub (pat s : Str) : Str :=
  eraseAllSubFuel pat s.length s

/-- Right fold collecting the words of a string: current word and the
completed words to the right. -/
def pyWordsAux (s : Str) : Str × List Str :=
  s.foldr
    (fun c acc =>
      if pySpace c then ([], if acc.1.isEmpty then acc.2 else acc.1 :: acc.2)
      else (c :: acc.1, acc.2))
    ([], [])

/-- Python `str.split()` with no argument: whitespace-run splitting,
dropping empty words. -/
def pyWords (s : Str) : List Str :=
  let a := pyWordsAux s
  if a.1.isEmpty then a.2 else a.1 :: a.2

/-- Python `str.isdigit()` (restricted to ASCII digits). -/
def isDigitStr (s : Str) : Bool :=
  !s.isEmpty && s.all Char.isDigit

/-- Value of a string of decimal digits. -/
def strToNat (s : Str) : ℕ :=
  s.foldl (fun n c => 10 * n + (c.toNat - '0'.toNat)) 0

/-- Python `int(s)` on a string: optional surrounding whitespace, optional
sign, then decimal digits with optional single underscores between digit
groups.  `none` models a raised `ValueError`. -/
def pyParseInt (s : Str) : Option ℤ :=
  let t := pyStrip s
  let (sign, digitsPart) : ℤ × Str :=
    match t with
    | '+' :: r => (1, r)
    | '-' :: r => (-1, r)
    | r => (1, r)
  let groups := digitsPart.splitOn '_'
  if digitsPart ≠ [] ∧ ∀ g ∈ groups, g ≠ [] ∧ g.all Char.isDigit then
    some (sign * (strToNat (digitsPart.filter (fun c => c ≠ '_')) : ℤ))
  else
    none

/-! ## Collation engine (`src/collate.py`) -/

/-- A grocery line item (`models.Ingredient`). -/
structure Ingredient where
  name : Str
  amount : Str
  unit : Str
deriving DecidableEq, Repr

/-- `normalize_name`: lowercase, strip, then the fixed singularization rules. -/
def normalize_name (name : Str) : Str :=
  let n := pyStrip (pyLower name)
  if listEndsWith n (chars "oes") then n.take (n.length - 2)
  else if listEndsWith n (chars "ies") then n.take (n.length - 3) ++ chars "y"
  else if listEndsWith n (chars "es") && !listEndsWith n (chars "sses") then
    n.take (n.length - 2)
  else if listEndsWith n (chars "s") && !listEndsWith n (chars "ss") then
    n.take (n.length - 1)
  else n

/-- Tail `\s*\(([^)]+)\)\s*$` of the outer reminder-text pattern: optional
whitespace, an opening paren, a non-empty run of non-`)` characters (the
group), the closing paren, trailing whitespace only.  Returns the group. -/
def matchParenTail (s : Str) : Option Str :=
  match s.dropWhile pySpace with
  | '(' :: rest =>
    let inside := rest.takeWhile (fun c => c ≠ ')')
    match rest.drop inside.length with
    | ')' :: tail =>
        if !inside.isEmpty && tail.all pySpace then some inside else none
    | _ => none
  | _ => none

/-- The outer pattern `^(.+?)\s*\(([^)]+)\)\s*$` of `parse_reminder_text`:
the non-greedy group 1 is the shortest non-empty newline-free prefix whose
remainder matches `matchParenTail`.  Returns (group 1, group 2). -/
def matchNameParen : Str → Option (Str × Str)
  | [] => none
  | c :: rest =>
    if c = '\n' then none
    else
      match matchParenTail rest with
      | some inside => some ([c], inside)
      | none => (matchNameParen rest).map (fun p => (c :: p.1, p.2))

/-- Character class `[\d./\-]` of the amount-splitting pattern. -/
def isClass1 (c : Char) : Bool := c.isDigit || c == '.' || c == '/' || c == '-'

/-- Character class `[\d./]` of the amount-splitting pattern. -/
def isClass2 (c : Char) : Bool := c.isDigit || c == '.' || c == '/'

/-- No newline characters. -/
def noNL (s : Str) : Bool := s.all (fun c => c ≠ '\n')

/-- Tail `\s*(.*)$` of the amount-splitting pattern (`.` does not match a
newline; `$` matches at the end or before a sole final newline).  Returns
the `(.*)` group when the tail matches. -/
def matchRestTail (s : Str) : Option Str :=
  let m := s.dropWhile pySpace
  if noNL m then some m
  else if m.getLast? = some '\n' && noNL m.dropLast then some m.dropLast
  else none

/-- The amount-splitting pattern
`^([\d./\-]+(?:\s*-\s*[\d./]+)?)\s*(.*)$` of `parse_reminder_text`.
Returns (group 1, group 2). -/
def matchAmountUnit (s : Str) : Option (Str × Str) :=
  let run := s.takeWhile isClass1
  if run.isEmpty then none
  else
    let r := s.drop run.length
    let tryRange : Option (Str × Str) :=
      let r1 := r.dropWhile pySpace
      match r1 with
      | '-' :: r2 =>
        let r3 := r2.dropWhile pySpace
        let digits := r3.takeWhile isClass2
        if digits.isEmpty then none
        else
          let g1 := run ++ r.take (r.length - r1.length) ++ ['-'] ++
            r2.take (r2.length - r3.length) ++ digits
          (matchRestTail (r3.drop digits.length)).map (fun g2 => (g1, g2))
      | _ => none
    match tryRange with
    | some res => some res
    | none => (matchRestTail r).map (fun g2 => (run, g2))

/-- `parse_reminder_text`: parse a reminder text back to (name, amount, unit). -/
def parse_reminder_text (text : Str) : Str × Str × Str :=
  match matchNameParen text with
  | none => (pyStrip text, [], [])
  | some (nameRaw, insideRaw) =>
    let name := pyStrip nameRaw
    let inside := pyStrip insideRaw
    if inside.contains '+' then (name, inside, [])
    else
      match matchAmountUnit inside with
      | some (g1, g2) => (name, pyStrip g1, pyStrip g2)
      | none => (name, inside, [])

/-- The rational `n / d` built directly in lowest terms.  (The `Rat`
arithmetic operations are irreducible, so values are constructed through
`Rat.mk'` to keep the embedding kernel-computable.) -/
def qOfFrac (n : ℤ) (d : ℕ) : ℚ :=
  if hd : d = 0 then 0
  else
    Rat.mk' (n / (Nat.gcd n.natAbs d : ℤ)) (d / Nat.gcd n.natAbs d)
      (Nat.ne_of_gt (Nat.div_pos (Nat.le_of_dvd (Nat.pos_of_ne_zero hd)
        (Nat.gcd_dvd_right _ _))
        (Nat.gcd_pos_of_pos_right _ (Nat.pos_of_ne_zero hd))))
      (by
        have hg : 0 < Nat.gcd n.natAbs d :=
          Nat.gcd_pos_of_pos_right _ (Nat.pos_of_ne_zero hd)
        have hdvd : ((Nat.gcd n.natAbs d : ℕ) : ℤ) ∣ n :=
          Int.dvd_natAbs.1 (Int.natCast_dvd_natCast.2 (Nat.gcd_dvd_left _ _))
        have hn : (n / ((Nat.gcd n.natAbs d : ℕ) : ℤ)).natAbs =
            n.natAbs / Nat.gcd n.natAbs d := by
          rw [Int.natAbs_ediv n _ hdvd, Int.natAbs_ofNat]
        rw [hn]
        exact Nat.coprime_div_gcd_div_gcd hg)

/-- Addition of rationals through `qOfFrac` (definitionally computable;
equal to `+` by `qAdd_eq_add` below). -/
def qAdd (a b : ℚ) : ℚ :=
  qOfFrac (a.num * (b.den : ℤ) + b.num * (a.den : ℤ)) (a.den * b.den)

/-- A Python float value as produced by `parse_amount`: finite values are
modelled as exact rationals (the binary rounding and finite range of IEEE
doubles are outside the model), plus the signed infinities and NaN that
`float(s)` parses. -/
inductive PyFloat
  | finite (val : ℚ)
  | inf (neg : Bool)
  | nan
deriving DecidableEq, Repr

/-- Split a string at the first character satisfying `p`: the part before,
and — when a split character occurs — the part after it. -/
def splitFirst (p : Char → Bool) : Str → Str × Option Str
  | [] => ([], none)
  | c :: rest =>
    if p c then ([], some rest)
    else
      let r := splitFirst p rest
      (c :: r.1, r.2)

/-- A digit group of Python numeric literals: `\d+(_\d+)*` (digits with
single underscores between digit runs). -/
def digitGroupOk (s : Str) : Bool :=
  !s.isEmpty && (s.splitOn '_').all (fun g => !g.isEmpty && g.all Char.isDigit)

/-- Numeric value of a digit group (underscores ignored). -/
def digitGroupVal (s : Str) : ℕ :=
  strToNat (s.filter (fun c => c ≠ '_'))

/-- Number of digits of a digit group (underscores ignored). -/
def digitCount (s : Str) : ℕ :=
  (s.filter (fun c => c ≠ '_')).length

/-- Exponent part of a numeric literal: optional sign, then a digit group. -/
def parseExp (s : Str) : Option ℤ :=
  match s with
  | '+' :: r => if digitGroupOk r then some (digitGroupVal r : ℤ) else none
  | '-' :: r => if digitGroupOk r then some (-(digitGroupVal r : ℤ)) else none
  | r => if digitGroupOk r then some (digitGroupVal r : ℤ) else none

/-- The rational `sign · m · 10 ^ net`, built through `qOfFrac`. -/
def qScaled (sign : ℤ) (m : ℕ) (net : ℤ) : ℚ :=
  if 0 ≤ net then qOfFrac (sign * ((m * 10 ^ net.toNat : ℕ) : ℤ)) 1
  else qOfFrac (sign * (m : ℤ)) (10 ^ (-net).toNat)

/-- The union of the numeric string grammars of `Fraction(s)` and
`float(s)`, as tried in order by `parse_amount` (both give the same
modelled value on the shared forms; the fraction form `a/b` is
`Fraction`-only, `inf`/`infinity`/`nan` are `float`-only): optional
surrounding whitespace and sign, then either a case-insensitive
`inf`/`infinity`/`nan`, a fraction `digits/digits` (a zero denominator
fails, mirroring the caught `ZeroDivisionError`), or a decimal
`[digits][.digits][(e|E)[sign]digits]` with at least one mantissa digit;
digit runs may contain single underscores. -/
def pyNumParse (s : Str) : Option PyFloat :=
  let t := pyStrip s
  let (sign, neg, body) : ℤ × Bool × Str :=
    match t with
    | '+' :: r => (1, false, r)
    | '-' :: r => (-1, true, r)
    | r => (1, false, r)
  let low := pyLower body
  if low = chars "inf" ∨ low = chars "infinity" then some (PyFloat.inf neg)
  else if low = chars "nan" then some PyFloat.nan
  else
    match splitFirst (fun c => c = '/') body with
    | (num, some den) =>
      if digitGroupOk num && digitGroupOk den then
        if digitGroupVal den = 0 then none
        else some (PyFloat.finite
          (qOfFrac (sign * (digitGroupVal num : ℤ)) (digitGroupVal den)))
      else none
    | (_, none) =>
      let me := splitFirst (fun c => c = 'e' ∨ c = 'E') body
      let expOk : Option ℤ :=
        match me.2 with
        | none => some 0
        | some ep => parseExp ep
      match expOk with
      | none => none
      | some ev =>
        let md := splitFirst (fun c => c = '.') me.1
        let ip := md.1
        let fp := (md.2).getD []
        if (ip.isEmpty || digitGroupOk ip) && (fp.isEmpty || digitGroupOk fp) &&
            (!ip.isEmpty || !fp.isEmpty) then
          some (PyFloat.finite (qScaled sign
            (digitGroupVal ip * 10 ^ digitCount fp + digitGroupVal fp)
            (ev - digitCount fp)))
        else none

/-- `parse_amount`: parse an amount string to a number; ranges `a-b` not
starting with `-` are cut to their first part.  `none` models a parse
failure (Python returns `None`). -/
def parse_amount (s : Str) : Option PyFloat :=
  if s.isEmpty then none
  else
    let s' :=
      if s.contains '-' && !listStartsWith s (chars "-") then
        pyStrip (s.takeWhile (fun c => c ≠ '-'))
      else s
    pyNumParse s'

/-- IEEE addition on the modelled float values (finite parts exact). -/
def pyFloatAdd : PyFloat → PyFloat → PyFloat
  | PyFloat.finite a, PyFloat.finite b => PyFloat.finite (qAdd a b)
  | PyFloat.nan, _ => PyFloat.nan
  | _, PyFloat.nan => PyFloat.nan
  | PyFloat.inf s1, PyFloat.inf s2 =>
    if s1 = s2 then PyFloat.inf s1 else PyFloat.nan
  | PyFloat.inf s1, PyFloat.finite _ => PyFloat.inf s1
  | PyFloat.finite _, PyFloat.inf s2 => PyFloat.inf s2

/-- The character of a decimal digit. -/
def natDigitChar (n : ℕ) : Char := Char.ofNat ('0'.toNat + n)

/-- Recursion core of `formatNat` (fuel-based; `n + 1` is always enough). -/
def formatNatFuel : ℕ → ℕ → Str
  | 0, _ => []
  | fuel + 1, n =>
    if n < 10 then [natDigitChar n]
    else formatNatFuel fuel (n / 10) ++ [natDigitChar (n % 10)]

/-- Decimal digit characters of a natural number (Python `str` on a
non-negative int). -/
def formatNat (n : ℕ) : Str :=
  formatNatFuel (n + 1) n

/-- Decimal representation of an integer. -/
def formatInt (z : ℤ) : Str :=
  if z < 0 then '-' :: formatNat z.natAbs else formatNat z.natAbs

/-- Banker's rounding (round half to even), as used by Python float
formatting. -/
def roundHalfEven (q : ℚ) : ℤ :=
  let f := ⌊q⌋
  if q - f < 1 / 2 then f
  else if q - f > 1 / 2 then f + 1
  else if f % 2 = 0 then f else f + 1

/-- `10 ^ e ≤ q` for a positive rational, by cross-multiplication. -/
def pow10Le (e : ℤ) (q : ℚ) : Bool :=
  if 0 ≤ e then (10 ^ e.toNat * q.den : ℤ) ≤ q.num
  else (q.den : ℤ) ≤ q.num * 10 ^ (-e).toNat

/-- Exponent `e` with `10 ^ e ≤ q < 10 ^ (e + 1)` for a positive rational. -/
def decExponent (q : ℚ) : ℤ :=
  let e0 : ℤ := (Nat.log 10 q.num.natAbs : ℤ) - (Nat.log 10 q.den : ℤ)
  if pow10Le (e0 + 1) q then e0 + 1
  else if !pow10Le e0 q then e0 - 1
  else e0

/-- `q / 10 ^ k`, built through `qOfFrac`. -/
def qDivPow10 (q : ℚ) (k : ℤ) : ℚ :=
  if 0 ≤ k then qOfFrac q.num (q.den * 10 ^ k.toNat)
  else qOfFrac (q.num * 10 ^ (-k).toNat) q.den

/-- Digits of the exponent in the `e±XX` suffix of `%g` (two digits
minimum). -/
def expDigits (n : ℕ) : Str :=
  let d := formatNat n
  if d.length < 2 then '0' :: d else d

/-- A two-digit mantissa rendered as `d1` or `d1.d2` (the trailing zero of
the fraction stripped, as `%g` does). -/
def mantStr (d : Str) : Str :=
  match d with
  | [d1, d2] => if d2 = '0' then [d1] else [d1, '.', d2]
  | other => other

/-- The `%.2g` format of a positive non-integer rational: round to two
significant decimal digits (half to even); scientific style `d[.d]e±XX`
when the decimal exponent is at least 2 (the precision) or below -4,
plain decimal style with the trailing fraction zero stripped otherwise. -/
def twoSigFig (q : ℚ) : Str :=
  let e := decExponent q
  let m0 := roundHalfEven (qDivPow10 q (e - 1))
  let p : ℤ × ℤ := if m0 = 100 then (10, e + 1) else (m0, e)
  let d := formatNat p.1.toNat
  if 2 ≤ p.2 ∨ p.2 < -4 then
    mantStr d ++ ['e'] ++ (if 0 ≤ p.2 then ['+'] else ['-']) ++
      expDigits p.2.natAbs
  else if 1 ≤ p.2 then
    d ++ List.replicate (p.2 - 1).toNat '0'
  else if p.2 = 0 then
    mantStr d
  else
    let frac := List.replicate (-p.2 - 1).toNat '0' ++ d
    chars "0." ++ (if frac.getLast? = some '0' then frac.dropLast else frac)

/-- Finite branch of `format_amount`: an integral value renders as bare
digits (`str(int(value))`), every other value through `%.2g`. -/
def formatFinite (v : ℚ) : Str :=
  if v.den = 1 then formatInt v.num
  else if v < 0 then '-' :: twoSigFig (-v) else twoSigFig v

/-- `format_amount`: the comparison `value == int(value)` evaluates
`int(value)` first, which raises `OverflowError` for an infinite value and
`ValueError` for NaN; `none` models those uncaught exceptions propagating. -/
def format_amount : PyFloat → Option Str
  | PyFloat.finite v => some (formatFinite v)
  | PyFloat.inf _ => none
  | PyFloat.nan => none

/-- `combine_amounts`: add numerically when the units match
case-insensitively and both amounts parse (a non-finite sum makes the
float formatting raise, modelled as `none`); otherwise concatenate as
`"amt1 unit1 + amt2 unit2"` with empty unit. -/
def combine_amounts (amt1 unit1 amt2 unit2 : Str) : Option (Str × Str) :=
  let unit1_norm := pyStrip (pyLower unit1)
  let unit2_norm := pyStrip (pyLower unit2)
  let part1 := if !unit1.isEmpty then pyStrip (amt1 ++ [' '] ++ unit1) else amt1
  let part2 := if !unit2.isEmpty then pyStrip (amt2 ++ [' '] ++ unit2) else amt2
  let concat := some (part1 ++ chars " + " ++ part2, ([] : Str))
  if unit1_norm = unit2_norm then
    match parse_amount amt1, parse_amount amt2 with
    | some val1, some val2 =>
      match format_amount (pyFloatAdd val1 val2) with
      | some combined => some (combined, unit1)
      | none => none
    | _, _ => concat
  else concat

/-- One entry of the `existing_parsed` lookup of `collate_ingredients`:
`norm_name -> (original_text, name, amount, unit)`. -/
structure ParsedEntry where
  text : Str
  name : Str
  amount : Str
  unit : Str
deriving DecidableEq, Repr

instance : Inhabited ParsedEntry := ⟨⟨[], [], [], []⟩⟩

/-- Normalized name under which a reminder text is registered in the lookup. -/
def keyOf (text : Str) : Str :=
  normalize_name (parse_reminder_text text).1

/-- First-match lookup in the association-list model of the Python dict
`existing_parsed` (keys are unique by construction). -/
def alistFind (k : Str) : List (Str × ParsedEntry) → Option ParsedEntry
  | [] => none
  | (k', v) :: rest => if k' = k then some v else alistFind k rest

/-- Deletion from the association-list model of the Python dict. -/
def alistErase (k : Str) : List (Str × ParsedEntry) → List (Str × ParsedEntry)
  | [] => []
  | (k', v) :: rest =>
    if k' = k then alistErase k rest else (k', v) :: alistErase k rest

/-- The lookup-building loop of `collate_ingredients`: parse each existing
text and register it under its normalized name, keeping only the first
occurrence per normalized name. -/
def buildLookupFrom (acc : List (Str × ParsedEntry)) :
    List Str → List (Str × ParsedEntry)
  | [] => acc
  | text :: rest =>
    let p := parse_reminder_text text
    let norm := normalize_name p.1
    if (alistFind norm acc).isSome then buildLookupFrom acc rest
    else buildLookupFrom (acc ++ [(norm, ⟨text, p.1, p.2.1, p.2.2⟩)]) rest

/-- The `existing_parsed` lookup built from the existing reminder texts. -/
def buildLookup (existing : List Str) : List (Str × ParsedEntry) :=
  buildLookupFrom [] existing

/-- The main loop of `collate_ingredients` over the new items: a new item
whose normalized name is in the lookup is merged with the matched entry
(which is then removed); otherwise it is added as new.  `none` propagates
an exception raised while combining amounts. -/
def collateGo (lookup : List (Str × ParsedEntry)) :
    List Ingredient → Option (List Ingredient × List (Str × Ingredient))
  | [] => some ([], [])
  | item :: rest =>
    let norm := normalize_name item.name
    match alistFind norm lookup with
    | some e =>
      match combine_amounts e.amount e.unit item.amount item.unit with
      | none => none
      | some c =>
        match collateGo (alistErase norm lookup) rest with
        | none => none
        | some res => some (res.1, (e.text, (⟨e.name, c.1, c.2⟩ : Ingredient)) :: res.2)
    | none =>
      match collateGo lookup rest with
      | none => none
      | some res => some (item :: res.1, res.2)

/-- `collate_ingredients`: collate new ingredients with existing reminder
texts, returning (items to add, items to update); `none` models the
uncaught exception raised when the float formatting of a merged amount is
applied to an infinite or NaN sum. -/
def collate_ingredients (existing : List Str) (new_items : List Ingredient) :
    Option (List Ingredient × List (Str × Ingredient)) :=
  collateGo (buildLookup existing) new_items

/-- `format_reminder_item` (`src/nodes/reminders_node.py`): render an
ingredient as `"name (amount unit)"` or `"name (amount)"`. -/
def format_reminder_item (item : Ingredient) : Str :=
  if !item.unit.isEmpty then
    item.name ++ chars " (" ++ item.amount ++ [' '] ++ item.unit ++ [')']
  else
    item.name ++ chars " (" ++ item.amount ++ [')']

/-! ## Search, validation and routing (`src/nodes/search.py`, `src/nodes/routing.py`) -/

/-- A meal option (`models.MealOption`). -/
structure MealOption where
  id : ℤ
  name : Str
  description : Str
  recipe_url : Str
deriving DecidableEq, Repr

/-- A recipe in an LLM structured response (`models.Recipe`). -/
structure Recipe where
  name : Str
  description : Str
  url : Str
deriving DecidableEq, Repr

/-- The structured LLM response consumed by `validate_recipes`
(`models.ValidationResult`). -/
structure ValidationResult where
  valid_recipes : List Recipe
  dish_names : List Str
deriving DecidableEq, Repr

/-- The re-indexing comprehension of `validate_recipes`: keep at most five
recipes and assign ordinals 1.. . -/
def reindexRecipes (rs : List Recipe) : List MealOption :=
  (rs.take 5).enum.map fun p =>
    ⟨(p.1 : ℤ) + 1, p.2.name, p.2.description, p.2.url⟩

/-- The partial state update returned by `validate_recipes`; a `none` field
models a key absent from the returned dict (left unchanged by the engine). -/
structure ValidateOutput where
  meal_options : List MealOption
  refinement_count : Option ℕ
  refine_dishes : Option (List Str)
deriving DecidableEq, Repr

/-- `validate_recipes`: accept when at least 3 candidates are valid; below
that, refine when budget and dish names remain; otherwise proceed with the
validated list if non-empty, else with the incoming candidates. -/
def validate_recipes (meal_options : List MealOption) (refinement_count : ℕ)
    (result : ValidationResult) : ValidateOutput :=
  let valid := reindexRecipes result.valid_recipes
  let dish_names := result.dish_names
  if 3 ≤ valid.length then ⟨valid, none, none⟩
  else if refinement_count < 2 ∧ dish_names ≠ [] then
    ⟨valid, some (refinement_count + 1), some (dish_names.take 5)⟩
  else ⟨if valid ≠ [] then valid else meal_options, none, none⟩

/-- The two targets of the `should_refine` conditional edge. -/
inductive Route
  | refineSearch
  | presentOptions
deriving DecidableEq, Repr

/-- `should_refine` (`src/nodes/routing.py`): refine exactly when the
`refine_dishes` state field is truthy (present and non-empty). -/
def should_refine (refine_dishes : Option (List Str)) : Route :=
  match refine_dishes with
  | some (_ :: _) => Route.refineSearch
  | _ => Route.presentOptions

/-- The slice of `MealPlannerState` that drives the validate/refine loop.
`refine_dishes = none` covers both an absent key and an explicit `None`
(indistinguishable through `state.get`). -/
structure SearchState where
  meal_options : List MealOption
  refinement_count : ℕ
  refine_dishes : Option (List Str)
deriving DecidableEq, Repr

/-- Merge the partial update of `validate_recipes` into the state
(absent keys stay unchanged, as the graph engine does). -/
def applyValidate (s : SearchState) (r : ValidationResult) : SearchState :=
  let out := validate_recipes s.meal_options s.refinement_count r
  { meal_options := out.meal_options,
    refinement_count := out.refinement_count.getD s.refinement_count,
    refine_dishes :=
      match out.refine_dishes with
      | some d => some d
      | none => s.refine_dishes }

/-- State effect of `refine_search`: replace the candidate list (with
whatever the targeted searches produced) and clear `refine_dishes` to exit
the refinement loop; the retry counter is untouched. -/
def refineUpdate (s : SearchState) (newOpts : List MealOption) : SearchState :=
  { meal_options := newOpts, refinement_count := s.refinement_count,
    refine_dishes := none }

/-- One run of the `validate_recipes → should_refine → refine_search →
validate_recipes` loop of the graph, driven by an oracle list giving, for
each validation round, the LLM validation result and the candidate list a
subsequent refinement would produce.  Returns the number of times the
refine branch is taken and the trace of states reached (after each
validation and each refinement); the run leaves the loop for
`present_options` as soon as the router says so. -/
def searchRun : List (ValidationResult × List MealOption) → SearchState →
    ℕ × List SearchState
  | [], _ => (0, [])
  | (r, refined) :: rest, s =>
    let s' := applyValidate s r
    match should_refine s'.refine_dishes with
    | Route.refineSearch =>
      let s'' := refineUpdate s' refined
      let res := searchRun rest s''
      (res.1 + 1, s' :: s'' :: res.2)
    | Route.presentOptions => (0, [s'])

/-- Initial state of the loop: `refinement_count` and `refine_dishes` unset
(`state.get` defaults of 0 and `None`). -/
def initSearchState (opts : List MealOption) : SearchState :=
  ⟨opts, 0, none⟩

/-! ## Interaction stages (`src/nodes/processing.py`) -/

/-- `present_options`: parse the resume value as a 1-based ordinal; fall
back to the first candidate.  `none` models the `IndexError` raised by
`meal_options[0]` on an empty candidate list. -/
def present_options (meal_options : List MealOption) (resume : Str) :
    Option MealOption :=
  match pyParseInt resume with
  | some n =>
    if 1 ≤ n ∧ n ≤ meal_options.length then meal_options.get? (n - 1).toNat
    else meal_options.get? 0
  | none => meal_options.get? 0

/-- The token list of the review stage's removal specification: the
`remove`/`remove:` prefixes erased, commas turned into spaces, then
whitespace splitting. -/
def removeTokens (u : Str) : List Str :=
  let removePart := pyStrip (eraseAllSub (chars "remove") (eraseAllSub (chars "remove:") u))
  pyWords (removePart.map fun c => if c = ',' then ' ' else c)

/-- The 1-based positions named by digit tokens (`indices_to_remove`). -/
def removeIndices (u : Str) : List ℕ :=
  (removeTokens u).filterMap fun t =>
    if isDigitStr t then some (strToNat t) else none

/-- The lowercased name tokens (`names_to_remove`). -/
def removeNames (u : Str) : List Str :=
  (removeTokens u).filterMap fun t =>
    if isDigitStr t then none else some (pyLower t)

/-- `should_keep` of `review_ingredients`: drop an item matched by 1-based
position or by case-insensitive name. -/
def shouldKeep (indices : List ℕ) (names : List Str) (idx : ℕ)
    (item : Ingredient) : Bool :=
  if idx ∈ indices then false
  else if pyLower item.name ∈ names then false
  else true

/-- The filtered list of the review stage's remove branch. -/
def filterKeep (indices : List ℕ) (names : List Str)
    (ingredients : List Ingredient) : List Ingredient :=
  (ingredients.enum.filter fun p => shouldKeep indices names (p.1 + 1) p.2).map
    Prod.snd

/-- `review_ingredients`: keep the list on an affirmative or empty resume
value, clear it on `remove all`, filter it on a `remove ...` value, and keep
it unchanged on anything else. -/
def review_ingredients (ingredients : List Ingredient) (resume : Str) :
    List Ingredient :=
  if ingredients = [] then []
  else
    let u := pyLower (pyStrip resume)
    if u = chars "ok" ∨ u = chars "yes" ∨ u = [] then ingredients
    else if u = chars "remove all" then []
    else if listStartsWith u (chars "remove") then
      filterKeep (removeIndices u) (removeNames u) ingredients
    else ingredients

/-! ## Reminders commit stage (`src/nodes/reminders_node.py`) -/

/-- A successful mutation of the external reminders store. -/
inductive RemEffect
  | createList (name : Str)
  | deleteBatch (name : Str) (texts : List Str)
  | createReminder (name : Str) (text : Str)
deriving DecidableEq, Repr

/-- The external reminders service as seen by `add_to_reminders`:
the existing list names, existence/creation/read/insert behaviour. -/
structure RemEnv where
  existing_lists : List Str
  listExists : Str → Bool
  createListOk : Str → Bool
  getReminders : Str → List Str
  createReminderOk : Str → Str → Bool

/-- The destination-list choice of `add_to_reminders`: a digit string
selects an existing list by 1-based position when in range, any other text
(or an out-of-range number) is a literal list name. -/
def reminders_list_name (env : RemEnv) (list_input_str : Str) : Str :=
  if isDigitStr list_input_str then
    let idx : ℤ := (strToNat list_input_str : ℤ) - 1
    if 0 ≤ idx ∧ idx < env.existing_lists.length then
      env.existing_lists.getD idx.toNat []
    else list_input_str
  else list_input_str

/-- `add_to_reminders`: returns the `reminders_added` flag and the list of
successful store mutations, in order.  Aborts (flag `false`, no mutation)
on an empty grocery list, a skip token, or a failed creation of a missing
destination list; otherwise deletes the superseded texts in one batch and
inserts the merged and the new items.  `none` propagates an exception
raised inside `collate_ingredients`. -/
def add_to_reminders (env : RemEnv) (ingredients : List Ingredient)
    (resume : Str) : Option (Bool × List RemEffect) :=
  if ingredients = [] then some (false, [])
  else
    let list_input_str := pyStrip resume
    if pyLower list_input_str ∈
        [chars "skip", chars "no", chars "cancel", ([] : Str)] then
      some (false, [])
    else
      let list_name := reminders_list_name env list_input_str
      let is_new_list := !env.listExists list_name
      if is_new_list && !env.createListOk list_name then some (false, [])
      else
        let createEff : List RemEffect :=
          if is_new_list then [RemEffect.createList list_name] else []
        let existing_items :=
          if is_new_list then [] else env.getReminders list_name
        match collate_ingredients existing_items ingredients with
        | none => none
        | some res =>
          let deleteEff : List RemEffect :=
            if res.2 ≠ [] then
              [RemEffect.deleteBatch list_name (res.2.map Prod.fst)]
            else []
          let updEff : List RemEffect :=
            (res.2.filter fun p =>
              env.createReminderOk list_name (format_reminder_item p.2)).map
              fun p => RemEffect.createReminder list_name (format_reminder_item p.2)
          let addEff : List RemEffect :=
            (res.1.filter fun i =>
              env.createReminderOk list_name (format_reminder_item i)).map
              fun i => RemEffect.createReminder list_name (format_reminder_item i)
          some (true, createEff ++ deleteEff ++ updEff ++ addEff)

/-! ## Interrupt registry (`src/server/interrupts.py`) -/

/-- The known interrupt types (`InterruptType`). -/
inductive InterruptKind
  | mealSelection
  | ingredientReview
  | remindersPrompt
  | generic
deriving DecidableEq, Repr

/-- The suspension payload passed to `interrupt()` by a stage, as consumed
by the matchers: a field is `none` when the key is absent from the dict.
Only key presence, list truthiness and the instruction text are inspected
by the matchers. -/
structure InterruptValue where
  prompt : Option Str
  instruction : Option Str
  options : Option (List Str)
  ingredients : Option (List Str)
  items : Option (List Str)
  existing_lists : Option (List Str)

/-- The apostrophe character (for the `'ok'` keyword). -/
def apos : Char := Char.ofNat 39

/-- `MealSelectionMatcher.matches`: by node name, by a truthy `options`
payload field, or by instruction keywords. -/
def mealSelectionMatches (next_node : Option Str) (instruction : Str)
    (iv : Option InterruptValue) : Bool :=
  (match next_node with
   | some n => n = chars "present_options"
   | none => false) ||
  (match iv with
   | some v =>
     (match v.options with
      | some l => !l.isEmpty
      | none => false)
   | none => false) ||
  (let il := pyLower instruction
   containsSub il (chars "select a recipe") || containsSub il (chars "1-5"))

/-- `IngredientReviewMatcher.matches`: by instruction keywords only. -/
def ingredientReviewMatches (instruction : Str) : Bool :=
  let il := pyLower instruction
  containsSub il (chars "remove") || containsSub il (chars "approve") ||
    containsSub il ([apos] ++ chars "ok" ++ [apos])

/-- `RemindersPromptMatcher.matches`: by node name, by presence of the
`existing_lists` payload key, or by instruction keywords. -/
def remindersPromptMatches (next_node : Option Str) (instruction : Str)
    (iv : Option InterruptValue) : Bool :=
  (match next_node with
   | some n => n = chars "add_to_reminders"
   | none => false) ||
  (match iv with
   | some v => v.existing_lists.isSome
   | none => false) ||
  (let il := pyLower instruction
   containsSub il (chars "list number") || containsSub il (chars "skip") ||
     containsSub il (chars "list name"))

/-- `detect_interrupt`: first matching entry of the ordered registry
`[RemindersPromptMatcher, IngredientReviewMatcher, MealSelectionMatcher,
GenericInterruptMatcher]` classifies the suspension. -/
def detect_interrupt (next_node : Option Str) (iv : Option InterruptValue) :
    InterruptKind :=
  let instruction :=
    match iv with
    | some v => v.instruction.getD []
    | none => []
  if remindersPromptMatches next_node instruction iv then
    InterruptKind.remindersPrompt
  else if ingredientReviewMatches instruction then
    InterruptKind.ingredientReview
  else if mealSelectionMatches next_node instruction iv then
    InterruptKind.mealSelection
  else InterruptKind.generic

/-! ## Basic lemmas about the embedding -/

theorem qOfFrac_eq_divInt (n : ℤ) (d : ℕ) : qOfFrac n d = Rat.divInt n (d : ℤ) := by
  unfold qOfFrac
  by_cases hd : d = 0
  · simp [hd]
  · rw [dif_neg hd, Rat.mk'_eq_divInt]
    have hg : 0 < Nat.gcd n.natAbs d :=
      Nat.gcd_pos_of_pos_right _ (Nat.pos_of_ne_zero hd)
    have hgz : ((Nat.gcd n.natAbs d : ℕ) : ℤ) ≠ 0 := by
      exact_mod_cast Nat.ne_of_gt hg
    have hdvdn : ((Nat.gcd n.natAbs d : ℕ) : ℤ) ∣ n :=
      Int.dvd_natAbs.1 (Int.natCast_dvd_natCast.2 (Nat.gcd_dvd_left _ _))
    have hdvdd : Nat.gcd n.natAbs d ∣ d := Nat.gcd_dvd_right _ _
    have h1 : ((Nat.gcd n.natAbs d : ℕ) : ℤ) * (n / (Nat.gcd n.natAbs d : ℕ)) = n :=
      Int.mul_ediv_cancel' hdvdn
    have h2 : ((Nat.gcd n.natAbs d : ℕ) : ℤ) * ((d / Nat.gcd n.natAbs d : ℕ) : ℤ) =
        (d : ℤ) := by
      rw [← Nat.cast_mul, Nat.mul_div_cancel' hdvdd]
    calc Rat.divInt ((n / (Nat.gcd n.natAbs d : ℕ) : ℤ)) ((d / Nat.gcd n.natAbs d : ℕ) : ℤ)
        = Rat.divInt (((Nat.gcd n.natAbs d : ℕ) : ℤ) * (n / (Nat.gcd n.natAbs d : ℕ)))
            (((Nat.gcd n.natAbs d : ℕ) : ℤ) * ((d / Nat.gcd n.natAbs d : ℕ) : ℤ)) :=
          (Rat.divInt_mul_left hgz).symm
      _ = Rat.divInt n (d : ℤ) := by rw [h1, h2]

theorem qAdd_eq_add (a b : ℚ) : qAdd a b = a + b := by
  rw [qAdd, qOfFrac_eq_divInt]
  have ha : ((a.den : ℤ) : ℤ) ≠ 0 := Int.natCast_ne_zero.2 a.den_nz
  have hb : ((b.den : ℤ) : ℤ) ≠ 0 := Int.natCast_ne_zero.2 b.den_nz
  conv_rhs => rw [← Rat.num_divInt_den a, ← Rat.num_divInt_den b]
  rw [Rat.divInt_add_divInt _ _ ha hb]
  push_cast
  ring_nf

theorem natDigitChar_isDigit {n : ℕ} (h : n < 10) : (natDigitChar n).isDigit := by
  interval_cases n <;> decide

theorem formatNatFuel_digits (fuel n : ℕ) :
    ∀ c ∈ formatNatFuel fuel n, c.isDigit := by
  induction fuel generalizing n with
  | zero => simp [formatNatFuel]
  | succ fuel ih =>
    intro c hc
    rw [formatNatFuel] at hc
    by_cases h : n < 10
    · rw [if_pos h] at hc
      simp only [List.mem_singleton] at hc
      exact hc ▸ natDigitChar_isDigit h
    · rw [if_neg h] at hc
      rcases List.mem_append.1 hc with h1 | h1
      · exact ih _ _ h1
      · simp only [List.mem_singleton] at h1
        exact h1 ▸ natDigitChar_isDigit (Nat.mod_lt _ (by norm_num))

theorem formatFinite_int_noDot (v : ℚ) (h : v.den = 1) :
    '.' ∉ formatFinite v := by
  rw [formatFinite, if_pos h, formatInt]
  intro hmem
  by_cases hz : v.num < 0
  · rw [if_pos hz] at hmem
    rcases List.mem_cons.1 hmem with h1 | h1
    · exact absurd h1 (by decide)
    · exact absurd (formatNatFuel_digits _ _ _ h1) (by decide)
  · rw [if_neg hz] at hmem
    exact absurd (formatNatFuel_digits _ _ _ hmem) (by decide)

/-- **C1 counterexample**  The merge rule as claimed fails: Python's
numeric parsing accepts forms outside the claim's four-form grammar
(`Fraction`/`float` parse exponents, digit-group underscores and `inf`),
so with matching units `1e2`-style and `1_0`-style amounts are summed
where the claim's otherwise-clause asserts the concatenation, and an
`inf` amount makes the float formatting of the sum raise `OverflowError`
(modelled as `none`) where the claim promises a merged item. -/
theorem C1_collate_merge_counterexample :
    combine_amounts (chars "1e2") (chars "cup") (chars "3") (chars "cup") =
      some (chars "103", chars "cup") ∧
    (some (chars "103", chars "cup") : Option (Str × Str)) ≠
      some (chars "1e2 cup + 3 cup", []) ∧
    combine_amounts (chars "1_0") (chars "cup") (chars "3") (chars "cup") =
      some (chars "13", chars "cup") ∧
    combine_amounts (chars "inf") (chars "large") (chars "2") (chars "large") =
      none := by
  exact ⟨by decide, by decide, by decide, by decide⟩

/-- **C1 amended**  For every new item whose normalized name matches a
(remaining) lookup entry, `collate_ingredients` emits into `toUpdate` the
pair of the original existing text and a merged item that keeps the
original existing name.  The merged amount and unit: when the units match
case-insensitively and both amounts parse as Python numbers — integer,
decimal, simple fraction `a/b` and range `a-b` taken at its first bound
all parse, as do exponent and underscore forms and `inf`/`nan` — a finite
sum is formatted with the shared unit (without a trailing `.0`, an
integral sum rendering as bare digits), while an infinite or NaN sum makes
the stage raise instead of emitting; when either amount fails to parse or
the units differ, the concatenation `"amt1 unit1 + amt2 unit2"` with empty
unit.  The spec's two end-to-end examples compute exactly as stated. -/
theorem C1_collate_merge_rule_amended :
    (∀ (lookup : List (Str × ParsedEntry)) (item : Ingredient)
        (e : ParsedEntry) (rest : List Ingredient) (c : Str × Str)
        (res : List Ingredient × List (Str × Ingredient)),
      alistFind (normalize_name item.name) lookup = some e →
      combine_amounts e.amount e.unit item.amount item.unit = some c →
      collateGo (alistErase (normalize_name item.name) lookup) rest =
        some res →
      collateGo lookup (item :: rest) =
        some (res.1,
          (e.text, (⟨e.name, c.1, c.2⟩ : Ingredient)) :: res.2)) ∧
    (∀ (lookup : List (Str × ParsedEntry)) (item : Ingredient)
        (e : ParsedEntry) (rest : List Ingredient),
      alistFind (normalize_name item.name) lookup = some e →
      combine_amounts e.amount e.unit item.amount item.unit = none →
      collateGo lookup (item :: rest) = none) ∧
    (∀ (amt1 unit1 amt2 unit2 : Str) (v1 v2 : ℚ),
      pyStrip (pyLower unit1) = pyStrip (pyLower unit2) →
      parse_amount amt1 = some (PyFloat.finite v1) →
      parse_amount amt2 = some (PyFloat.finite v2) →
      combine_amounts amt1 unit1 amt2 unit2 =
        some (formatFinite (v1 + v2), unit1)) ∧
    (∀ (amt1 unit1 amt2 unit2 : Str) (v1 v2 : PyFloat),
      pyStrip (pyLower unit1) = pyStrip (pyLower unit2) →
      parse_amount amt1 = some v1 → parse_amount amt2 = some v2 →
      (∀ q : ℚ, pyFloatAdd v1 v2 ≠ PyFloat.finite q) →
      combine_amounts amt1 unit1 amt2 unit2 = none) ∧
    (∀ amt1 unit1 amt2 unit2 : Str,
      (pyStrip (pyLower unit1) ≠ pyStrip (pyLower unit2) ∨
        parse_amount amt1 = none ∨ parse_amount amt2 = none) →
      combine_amounts amt1 unit1 amt2 unit2 =
        some ((if !unit1.isEmpty then pyStrip (amt1 ++ [' '] ++ unit1)
            else amt1) ++
          chars " + " ++
          (if !unit2.isEmpty then pyStrip (amt2 ++ [' '] ++ unit2) else amt2),
          [])) ∧
    (∀ v : ℚ, v.den = 1 → '.' ∉ formatFinite v) ∧
    (parse_amount (chars "7") = some (PyFloat.finite 7) ∧
      parse_amount (chars "1.5") = some (PyFloat.finite (3 / 2 : ℚ)) ∧
      parse_amount (chars "1/2") = some (PyFloat.finite (1 / 2 : ℚ)) ∧
      parse_amount (chars "1-2") = some (PyFloat.finite 1) ∧
      parse_amount (chars "1e2") = some (PyFloat.finite 100) ∧
      parse_amount (chars "1_0") = some (PyFloat.finite 10) ∧
      parse_amount (chars "inf") = some (PyFloat.inf false) ∧
      parse_amount (chars "nan") = some PyFloat.nan) ∧
    collate_ingredients [chars "eggs (3 large)"]
        [⟨chars "eggs", chars "2", chars "large"⟩] =
      some ([], [(chars "eggs (3 large)",
        ⟨chars "eggs", chars "5", chars "large"⟩)]) ∧
    collate_ingredients [chars "flour (1 cup)"]
        [⟨chars "flour", chars "2", chars "tbsp"⟩] =
      some ([], [(chars "flour (1 cup)",
        ⟨chars "flour", chars "1 cup + 2 tbsp", []⟩)]) := by
  refine ⟨?_, ?_, ?_, ?_, ?_, formatFinite_int_noDot,
    ⟨by decide, ?_, ?_, by decide, ?_, ?_, by decide, by decide⟩,
    by decide, by decide⟩
  · intro lookup item e rest c res hf hc hr
    simp only [collateGo, hf, hc, hr]
  · intro lookup item e rest hf hc
    simp only [collateGo, hf, hc]
  · intro amt1 unit1 amt2 unit2 v1 v2 hu h1 h2
    simp only [combine_amounts, hu, if_pos, h1, h2, pyFloatAdd, format_amount,
      qAdd_eq_add]
  · intro amt1 unit1 amt2 unit2 v1 v2 hu h1 h2 hnf
    simp only [combine_amounts, hu, if_pos, h1, h2]
    cases hadd : pyFloatAdd v1 v2 with
    | finite q => exact absurd hadd (hnf q)
    | inf b => simp [format_amount]
    | nan => simp [format_amount]
  · intro amt1 unit1 amt2 unit2 h
    rcases h with h | h | h
    · simp only [combine_amounts, if_neg h]
    · simp only [combine_amounts, h]
      by_cases hu : pyStrip (pyLower unit1) = pyStrip (pyLower unit2) <;>
        simp [hu]
    · simp only [combine_amounts, h]
      rcases hp : parse_amount amt1 with _ | v <;>
        by_cases hu : pyStrip (pyLower unit1) = pyStrip (pyLower unit2) <;>
          simp [hu]
  · have h : parse_amount (chars "1.5") =
        some (PyFloat.finite (qOfFrac 15 10)) := by decide
    rw [h, qOfFrac_eq_divInt, Rat.divInt_eq_div]
    norm_num
  · have h : parse_amount (chars "1/2") =
        some (PyFloat.finite (qOfFrac 1 2)) := by decide
    rw [h, qOfFrac_eq_divInt, Rat.divInt_eq_div]
    norm_num
  · have h : parse_amount (chars "1e2") =
        some (PyFloat.finite (qOfFrac 100 1)) := by decide
    rw [h, qOfFrac_eq_divInt, Rat.divInt_eq_div]
    norm_num
  · have h : parse_amount (chars "1_0") =
        some (PyFloat.finite (qOfFrac 10 1)) := by decide
    rw [h, qOfFrac_eq_divInt, Rat.divInt_eq_div]
    norm_num

/-- Witness for `C1_collate_merge_rule_amended`: the finite numeric-merge
clause applied to the eggs example's amounts. -/
theorem C1_collate_merge_rule_amended_witness :
    combine_amounts (chars "3") (chars "large") (chars "2") (chars "large") =
      some (chars "5", chars "large") := by
  have h := C1_collate_merge_rule_amended.2.2.1 (chars "3") (chars "large")
    (chars "2") (chars "large") 3 2 rfl (by decide) (by decide)
  rw [h]
  have h5 : (3 + 2 : ℚ) = 5 := by norm_num
  rw [h5]
  decide

/-! ## Lookup and collation invariants -/

theorem alistFind_mem {k : Str} {l : List (Str × ParsedEntry)} {v : ParsedEntry}
    (h : alistFind k l = some v) : (k, v) ∈ l := by
  induction l with
  | nil => simp [alistFind] at h
  | cons q rest ih =>
    cases q with
    | mk k' v' =>
      rw [alistFind] at h
      by_cases hk : k' = k
      · rw [if_pos hk] at h
        cases h
        subst hk
        exact List.mem_cons_self _ _
      · rw [if_neg hk] at h
        exact List.mem_cons_of_mem _ (ih h)

theorem alistFind_eq_none {k : Str} {l : List (Str × ParsedEntry)} :
    alistFind k l = none ↔ k ∉ l.map Prod.fst := by
  induction l with
  | nil => simp [alistFind]
  | cons q rest ih =>
    cases q with
    | mk k' v' =>
      rw [alistFind]
      by_cases hk : k' = k
      · simp [hk]
      · simp [hk, ih, Ne.symm hk]

theorem mem_alistErase {k : Str} {l : List (Str × ParsedEntry)}
    {p : Str × ParsedEntry} :
    p ∈ alistErase k l ↔ p ∈ l ∧ p.1 ≠ k := by
  induction l with
  | nil => simp [alistErase]
  | cons q rest ih =>
    cases q with
    | mk k' v' =>
      rw [alistErase]
      by_cases hk : k' = k
      · subst hk
        rw [if_pos rfl, ih]
        constructor
        · rintro ⟨hp, hne⟩
          exact ⟨List.mem_cons_of_mem _ hp, hne⟩
        · rintro ⟨hp, hne⟩
          rcases List.mem_cons.1 hp with h1 | h1
          · exact absurd (h1 ▸ rfl) hne
          · exact ⟨h1, hne⟩
      · rw [if_neg hk]
        constructor
        · intro hp
          rcases List.mem_cons.1 hp with h1 | h1
          · subst h1
            exact ⟨List.mem_cons_self _ _, hk⟩
          · rcases ih.1 h1 with ⟨h2, h3⟩
            exact ⟨List.mem_cons_of_mem _ h2, h3⟩
        · rintro ⟨hp, hne⟩
          rcases List.mem_cons.1 hp with h1 | h1
          · subst h1
            exact List.mem_cons_self _ _
          · exact List.mem_cons_of_mem _ (ih.2 ⟨h1, hne⟩)

theorem alistErase_sublist (k : Str) (l : List (Str × ParsedEntry)) :
    (alistErase k l).Sublist l := by
  induction l with
  | nil => simp [alistErase]
  | cons q rest ih =>
    cases q with
    | mk k' v' =>
      rw [alistErase]
      by_cases hk : k' = k
      · rw [if_pos hk]
        exact ih.trans (List.sublist_cons_self _ _)
      · rw [if_neg hk]
        exact List.Sublist.cons₂ _ ih

theorem buildLookupFrom_mem {acc : List (Str × ParsedEntry)} {ex : List Str}
    {p : Str × ParsedEntry} (hp : p ∈ buildLookupFrom acc ex) :
    p ∈ acc ∨ (p.1 = keyOf p.2.text ∧ p.2.text ∈ ex) := by
  induction ex generalizing acc with
  | nil => exact Or.inl hp
  | cons t rest ih =>
    simp only [buildLookupFrom] at hp
    by_cases hf : (alistFind (normalize_name (parse_reminder_text t).1) acc).isSome
    · rw [if_pos hf] at hp
      rcases ih hp with h | h
      · exact Or.inl h
      · exact Or.inr ⟨h.1, List.mem_cons_of_mem _ h.2⟩
    · rw [if_neg hf] at hp
      rcases ih hp with h | h
      · rcases List.mem_append.1 h with h1 | h1
        · exact Or.inl h1
        · rcases List.mem_singleton.1 h1 with rfl
          exact Or.inr ⟨rfl, List.mem_cons_self _ _⟩
      · exact Or.inr ⟨h.1, List.mem_cons_of_mem _ h.2⟩

theorem buildLookupFrom_keys_nodup {acc : List (Str × ParsedEntry)}
    {ex : List Str} (h : (acc.map Prod.fst).Nodup) :
    ((buildLookupFrom acc ex).map Prod.fst).Nodup := by
  induction ex generalizing acc with
  | nil => exact h
  | cons t rest ih =>
    simp only [buildLookupFrom]
    by_cases hf : (alistFind (normalize_name (parse_reminder_text t).1) acc).isSome
    · rw [if_pos hf]
      exact ih h
    · rw [if_neg hf]
      refine ih ?_
      have hnm : normalize_name (parse_reminder_text t).1 ∉ acc.map Prod.fst := by
        rw [← alistFind_eq_none]
        cases hfa : alistFind (normalize_name (parse_reminder_text t).1) acc with
        | none => rfl
        | some v => exact absurd (hfa ▸ rfl) hf
      simp [List.nodup_append, h, hnm]

theorem collateGo_length (lookup : List (Str × ParsedEntry))
    (items : List Ingredient)
    (res : List Ingredient × List (Str × Ingredient))
    (h : collateGo lookup items = some res) :
    res.1.length + res.2.length = items.length := by
  induction items generalizing lookup res with
  | nil =>
    simp only [collateGo] at h
    cases h
    simp
  | cons item rest ih =>
    simp only [collateGo] at h
    cases hf : alistFind (normalize_name item.name) lookup with
    | some e =>
      simp only [hf] at h
      cases hc : combine_amounts e.amount e.unit item.amount item.unit with
      | none => simp only [hc] at h; cases h
      | some c =>
        simp only [hc] at h
        cases hr : collateGo (alistErase (normalize_name item.name) lookup)
            rest with
        | none => simp only [hr] at h; cases h
        | some res' =>
          simp only [hr] at h
          cases h
          have := ih _ _ hr
          simp only [List.length_cons]
          omega
    | none =>
      simp only [hf] at h
      cases hr : collateGo lookup rest with
      | none => simp only [hr] at h; cases h
      | some res' =>
        simp only [hr] at h
        cases h
        have := ih _ _ hr
        simp only [List.length_cons]
        omega

theorem collateGo_adds_sublist (lookup : List (Str × ParsedEntry))
    (items : List Ingredient)
    (res : List Ingredient × List (Str × Ingredient))
    (h : collateGo lookup items = some res) :
    res.1.Sublist items := by
  induction items generalizing lookup res with
  | nil =>
    simp only [collateGo] at h
    cases h
    simp
  | cons item rest ih =>
    simp only [collateGo] at h
    cases hf : alistFind (normalize_name item.name) lookup with
    | some e =>
      simp only [hf] at h
      cases hc : combine_amounts e.amount e.unit item.amount item.unit with
      | none => simp only [hc] at h; cases h
      | some c =>
        simp only [hc] at h
        cases hr : collateGo (alistErase (normalize_name item.name) lookup)
            rest with
        | none => simp only [hr] at h; cases h
        | some res' =>
          simp only [hr] at h
          cases h
          exact (ih _ _ hr).trans (List.sublist_cons_self _ _)
    | none =>
      simp only [hf] at h
      cases hr : collateGo lookup rest with
      | none => simp only [hr] at h; cases h
      | some res' =>
        simp only [hr] at h
        cases h
        exact List.Sublist.cons₂ _ (ih _ _ hr)

theorem collateGo_upd_texts (lookup : List (Str × ParsedEntry))
    (items : List Ingredient)
    (hnd : (lookup.map Prod.fst).Nodup)
    (hco : ∀ p ∈ lookup, p.1 = keyOf p.2.text)
    (res : List Ingredient × List (Str × Ingredient))
    (h : collateGo lookup items = some res) :
    (res.2.map Prod.fst).Nodup ∧
      ∀ t ∈ res.2.map Prod.fst, ∃ p ∈ lookup, p.2.text = t := by
  induction items generalizing lookup res with
  | nil =>
    simp only [collateGo] at h
    cases h
    simp
  | cons item rest ih =>
    simp only [collateGo] at h
    cases hf : alistFind (normalize_name item.name) lookup with
    | none =>
      simp only [hf] at h
      cases hr : collateGo lookup rest with
      | none => simp only [hr] at h; cases h
      | some res' =>
        simp only [hr] at h
        cases h
        exact ih lookup hnd hco res' hr
    | some e =>
      simp only [hf] at h
      cases hc : combine_amounts e.amount e.unit item.amount item.unit with
      | none => simp only [hc] at h; cases h
      | some c =>
        simp only [hc] at h
        cases hr : collateGo (alistErase (normalize_name item.name) lookup)
            rest with
        | none => simp only [hr] at h; cases h
        | some res' =>
          simp only [hr] at h
          cases h
          have hmem : (normalize_name item.name, e) ∈ lookup :=
            alistFind_mem hf
          have hkey : normalize_name item.name = keyOf e.text := hco _ hmem
          have hnd' : ((alistErase (normalize_name item.name) lookup).map
              Prod.fst).Nodup :=
            hnd.sublist (List.Sublist.map _ (alistErase_sublist _ _))
          have hco' : ∀ p ∈ alistErase (normalize_name item.name) lookup,
              p.1 = keyOf p.2.text := fun p hp => hco p (mem_alistErase.1 hp).1
          rcases ih _ hnd' hco' res' hr with ⟨ihnd, ihsub⟩
          constructor
          · simp only [List.map_cons, List.nodup_cons]
            refine ⟨?_, ihnd⟩
            intro hmem'
            rcases ihsub _ hmem' with ⟨p, hp, hpt⟩
            rcases mem_alistErase.1 hp with ⟨hpl, hpne⟩
            exact hpne ((hco _ hpl).trans (by rw [hpt, ← hkey]))
          · intro t ht
            rcases List.mem_cons.1 ht with h1 | h1
            · exact ⟨(normalize_name item.name, e), hmem, h1.symm⟩
            · rcases ihsub _ h1 with ⟨p, hp, hpt⟩
              exact ⟨p, (mem_alistErase.1 hp).1, hpt⟩

/-- **C9 counterexample**  `collate_ingredients` does not always return:
a new item with amount `inf` matching an existing entry with the same
(empty) unit reaches `format_amount`, whose `value == int(value)` raises
`OverflowError` on the infinite sum; the exception propagates out of the
collation (modelled as `none`). -/
theorem C9_collate_partition_counterexample :
    collate_ingredients [chars "eggs (2)"]
      [⟨chars "eggs", chars "inf", []⟩] = none := by
  decide

/-- **C9 amended**  Whenever `collate_ingredients` returns — it raises
only when the float formatting of a merged amount hits an infinite or NaN
sum, see the counterexample — it partitions the new items:
`|toAdd| + |toUpdate| = |new_items|`, the `toAdd` items are the unmatched
new items unchanged and in order (a sublist), and the original-text
components of `toUpdate` are pairwise distinct members of the existing
list — no existing line is updated twice even when several new items share
a normalized name. -/
theorem C9_collate_partition (existing : List Str)
    (new_items : List Ingredient)
    (res : List Ingredient × List (Str × Ingredient))
    (h : collate_ingredients existing new_items = some res) :
    res.1.length + res.2.length = new_items.length ∧
    res.1.Sublist new_items ∧
    (res.2.map Prod.fst).Nodup ∧
    ∀ t ∈ res.2.map Prod.fst, t ∈ existing := by
  simp only [collate_ingredients] at h
  have hnd : ((buildLookup existing).map Prod.fst).Nodup :=
    buildLookupFrom_keys_nodup (by simp)
  have hco : ∀ p ∈ buildLookup existing, p.1 = keyOf p.2.text := by
    intro p hp
    rcases buildLookupFrom_mem hp with h1 | h1
    · simp at h1
    · exact h1.1
  have htext : ∀ p ∈ buildLookup existing, p.2.text ∈ existing := by
    intro p hp
    rcases buildLookupFrom_mem hp with h1 | h1
    · simp at h1
    · exact h1.2
  rcases collateGo_upd_texts (buildLookup existing) new_items hnd hco res h
    with ⟨h1, h2⟩
  refine ⟨collateGo_length _ _ _ h, collateGo_adds_sublist _ _ _ h, h1, ?_⟩
  intro t ht
  rcases h2 t ht with ⟨p, hp, hpt⟩
  exact hpt ▸ htext p hp

theorem buildLookupFrom_keys_mono {acc : List (Str × ParsedEntry)}
    {ex : List Str} {k : Str} (hk : k ∈ acc.map Prod.fst) :
    k ∈ (buildLookupFrom acc ex).map Prod.fst := by
  induction ex generalizing acc with
  | nil => exact hk
  | cons t rest ih =>
    simp only [buildLookupFrom]
    by_cases hf : (alistFind (normalize_name (parse_reminder_text t).1) acc).isSome
    · rw [if_pos hf]
      exact ih hk
    · rw [if_neg hf]
      refine ih ?_
      simp only [List.map_append, List.mem_append]
      exact Or.inl hk

theorem keyOf_mem_buildLookup_keys (ex : List Str) (t : Str) (ht : t ∈ ex) :
    keyOf t ∈ (buildLookup ex).map Prod.fst := by
  rw [buildLookup]
  generalize hacc : ([] : List (Str × ParsedEntry)) = acc
  clear hacc
  induction ex generalizing acc with
  | nil => cases ht
  | cons x rest ih =>
    simp only [buildLookupFrom]
    rcases List.mem_cons.1 ht with rfl | ht'
    · by_cases hf : (alistFind (normalize_name (parse_reminder_text t).1) acc).isSome
      · rw [if_pos hf]
        rcases Option.isSome_iff_exists.1 hf with ⟨v, hv⟩
        have : keyOf t ∈ acc.map Prod.fst := by
          have := alistFind_mem hv
          exact List.mem_map.2 ⟨_, this, rfl⟩
        exact buildLookupFrom_keys_mono this
      · rw [if_neg hf]
        refine buildLookupFrom_keys_mono ?_
        simp only [List.map_append, List.mem_append]
        right
        simp [keyOf]
    · by_cases hf : (alistFind (normalize_name (parse_reminder_text x).1) acc).isSome
      · rw [if_pos hf]
        exact ih ht' _
      · rw [if_neg hf]
        exact ih ht' _

theorem collateGo_adds_not_found (lookup : List (Str × ParsedEntry))
    (items : List Ingredient)
    (hnd : (items.map (fun i => normalize_name i.name)).Nodup)
    (res : List Ingredient × List (Str × Ingredient))
    (h : collateGo lookup items = some res) :
    ∀ i ∈ res.1, alistFind (normalize_name i.name) lookup = none := by
  induction items generalizing lookup res with
  | nil =>
    simp only [collateGo] at h
    cases h
    simp
  | cons item rest ih =>
    rcases List.nodup_cons.1 hnd with ⟨hni, hnd'⟩
    simp only [collateGo] at h
    cases hf : alistFind (normalize_name item.name) lookup with
    | some e =>
      simp only [hf] at h
      cases hc : combine_amounts e.amount e.unit item.amount item.unit with
      | none => simp only [hc] at h; cases h
      | some c =>
        simp only [hc] at h
        cases hr : collateGo (alistErase (normalize_name item.name) lookup)
            rest with
        | none => simp only [hr] at h; cases h
        | some res' =>
          simp only [hr] at h
          cases h
          intro i hi
          have hres := ih _ hnd' res' hr i hi
          rw [alistFind_eq_none] at hres ⊢
          intro hmem
          have hirest : i ∈ rest :=
            (collateGo_adds_sublist _ _ _ hr).subset hi
          have hine : normalize_name i.name ≠ normalize_name item.name :=
            fun he => hni (List.mem_map.2 ⟨i, hirest, he⟩)
          rcases List.mem_map.1 hmem with ⟨p, hp, hpk⟩
          exact hres (List.mem_map.2
            ⟨p, mem_alistErase.2 ⟨hp, hpk ▸ hine⟩, hpk⟩)
    | none =>
      simp only [hf] at h
      cases hr : collateGo lookup rest with
      | none => simp only [hr] at h; cases h
      | some res' =>
        simp only [hr] at h
        cases h
        intro i hi
        rcases List.mem_cons.1 hi with rfl | hi'
        · exact hf
        · exact ih lookup hnd' res' hr i hi'

/-- **C8 counterexample**  The claim fails as stated: with existing = `[]`
and new items `egg (1)` and `eggs (2)` — two fresh items sharing the
normalized name `egg` — both land in `toAdd`; after formatting and
appending them to the existing list, re-collating `toAdd` re-adds the
`eggs` item even though its normalized name `egg` is the normalized parsed
name of the extended list's entry `"egg (1)"`. -/
theorem C8_collate_idempotence_counterexample :
    collate_ingredients [] [⟨chars "egg", chars "1", []⟩,
        ⟨chars "eggs", chars "2", []⟩] =
      some ([⟨chars "egg", chars "1", []⟩, ⟨chars "eggs", chars "2", []⟩],
        []) ∧
    [⟨chars "egg", chars "1", []⟩,
        (⟨chars "eggs", chars "2", []⟩ : Ingredient)].map
      format_reminder_item = [chars "egg (1)", chars "eggs (2)"] ∧
    (collate_ingredients
        (([] : List Str) ++ [chars "egg (1)", chars "eggs (2)"])
        [⟨chars "egg", chars "1", []⟩,
          ⟨chars "eggs", chars "2", []⟩]).map Prod.fst =
      some [⟨chars "eggs", chars "2", []⟩] ∧
    normalize_name (chars "eggs") = keyOf (chars "egg (1)") ∧
    (chars "egg (1)") ∈ ([] : List Str) ++
      [chars "egg (1)", chars "eggs (2)"] := by
  exact ⟨by decide, by decide, by decide, by decide, by decide⟩

/-- **C8 amended**  Collation is idempotent for freshly added items whose
normalized names are pairwise distinct: formatting the first pass's `toAdd`
items, appending them to the existing texts and collating `toAdd` again
yields (when it returns) no `toAdd` item whose normalized name equals the
normalized parsed name of any entry of the extended list.  (Without the
distinctness hypothesis the claim fails, see the counterexample.) -/
theorem C8_collate_idempotence_amended (existing : List Str)
    (new_items : List Ingredient)
    (res1 : List Ingredient × List (Str × Ingredient))
    (h1 : collate_ingredients existing new_items = some res1)
    (hnd : (res1.1.map (fun i => normalize_name i.name)).Nodup)
    (res2 : List Ingredient × List (Str × Ingredient))
    (h2 : collate_ingredients
        (existing ++ res1.1.map format_reminder_item) res1.1 = some res2) :
    ∀ i ∈ res2.1,
      ∀ t ∈ existing ++ res1.1.map format_reminder_item,
        normalize_name i.name ≠ keyOf t := by
  intro i hi t ht hcon
  simp only [collate_ingredients] at h2
  have hnf := collateGo_adds_not_found _ _ hnd res2 h2 i hi
  rw [alistFind_eq_none] at hnf
  exact hnf (hcon ▸ keyOf_mem_buildLookup_keys _ _ ht)

/-- Witness for `C8_collate_idempotence_amended` at a concrete input. -/
theorem C8_collate_idempotence_amended_witness :
    (collate_ingredients [] [⟨chars "egg", chars "1", []⟩] =
      some ([⟨chars "egg", chars "1", []⟩], [])) ∧
    (([⟨chars "egg", chars "1", []⟩] : List Ingredient).map
      (fun i => normalize_name i.name)).Nodup ∧
    (collate_ingredients
        (([] : List Str) ++
          ([⟨chars "egg", chars "1", []⟩] : List Ingredient).map
            format_reminder_item)
        [⟨chars "egg", chars "1", []⟩] =
      some ([], [(chars "egg (1)", ⟨chars "egg", chars "2", []⟩)])) ∧
    ∀ i ∈ ([] : List Ingredient),
      ∀ t ∈ ([] : List Str) ++
          ([⟨chars "egg", chars "1", []⟩] : List Ingredient).map
            format_reminder_item,
        normalize_name i.name ≠ keyOf t :=
  ⟨by decide, by decide, by decide,
    C8_collate_idempotence_amended [] [⟨chars "egg", chars "1", []⟩]
      ([⟨chars "egg", chars "1", []⟩], []) (by decide) (by decide)
      ([], [(chars "egg (1)", ⟨chars "egg", chars "2", []⟩)]) (by decide)⟩

/-! ## Refinement-loop invariants -/

theorem searchRun_bound (oracle : List (ValidationResult × List MealOption))
    (s : SearchState) (hd : s.refine_dishes = none)
    (hc : s.refinement_count ≤ 2) :
    (searchRun oracle s).1 + s.refinement_count ≤ 2 ∧
      ∀ st ∈ (searchRun oracle s).2, st.refinement_count ≤ 2 := by
  induction oracle generalizing s with
  | nil => simpa [searchRun] using hc
  | cons p rest ih =>
    obtain ⟨r, refined⟩ := p
    rw [searchRun]
    by_cases h3 : 3 ≤ (reindexRecipes r.valid_recipes).length
    · have hs' : (applyValidate s r).refine_dishes = none := by
        simp [applyValidate, validate_recipes, h3, hd]
      have hcount : (applyValidate s r).refinement_count = s.refinement_count := by
        simp [applyValidate, validate_recipes, h3]
      rw [hs']
      simp only [should_refine]
      constructor
      · omega
      · intro st hst
        rcases List.mem_singleton.1 hst with rfl
        omega
    · by_cases hcd : s.refinement_count < 2 ∧ r.dish_names ≠ []
      · obtain ⟨hlt, hdn⟩ := hcd
        have hout : validate_recipes s.meal_options s.refinement_count r =
            ⟨reindexRecipes r.valid_recipes, some (s.refinement_count + 1),
              some (r.dish_names.take 5)⟩ := by
          simp [validate_recipes, h3, hlt, hdn]
        have hs' : applyValidate s r =
            ⟨reindexRecipes r.valid_recipes, s.refinement_count + 1,
              some (r.dish_names.take 5)⟩ := by
          simp [applyValidate, hout]
        rw [hs']
        obtain ⟨d, ds, hdd⟩ : ∃ d ds, r.dish_names = d :: ds := by
          cases hdn' : r.dish_names with
          | nil => exact absurd hdn' hdn
          | cons d ds => exact ⟨d, ds, rfl⟩
        rw [hdd]
        simp only [List.take, should_refine]
        rcases ih ⟨refined, s.refinement_count + 1, none⟩ rfl
          (by show s.refinement_count + 1 ≤ 2; omega) with ⟨ihb, iht⟩
        have ihb' : (searchRun rest
            (⟨refined, s.refinement_count + 1, none⟩ : SearchState)).1 +
            (s.refinement_count + 1) ≤ 2 := ihb
        constructor
        · simp only [refineUpdate]
          omega
        · intro st hst
          simp only [refineUpdate] at hst
          rcases List.mem_cons.1 hst with rfl | hst'
          · simp only []
            omega
          · rcases List.mem_cons.1 hst' with rfl | hst''
            · simp only []
              omega
            · exact iht st hst''
      · have hout : (validate_recipes s.meal_options s.refinement_count r).refine_dishes
            = none := by
          simp only [validate_recipes, if_neg h3]
          rw [if_neg hcd]
        have hs' : (applyValidate s r).refine_dishes = none := by
          simp [applyValidate, hout, hd]
        have hcount : (applyValidate s r).refinement_count = s.refinement_count := by
          simp only [applyValidate, validate_recipes, if_neg h3]
          rw [if_neg hcd]
          simp
        rw [hs']
        simp only [should_refine]
        constructor
        · omega
        · intro st hst
          rcases List.mem_singleton.1 hst with rfl
          omega

/-- **C2**  The refine branch of the workflow graph is taken at most 2
times in any run, however many times validation comes up short:
`validate_recipes` sets `refine_dishes` only while the retry counter is
below 2 (incrementing it each such time), `should_refine` routes to
`refine_search` only on a non-empty `refine_dishes`, a budget-exhausted
under-threshold validation routes to `present_options`, and the counter
never exceeds 2 in any reachable state. -/
theorem C2_refinement_bound :
    (∀ (oracle : List (ValidationResult × List MealOption))
        (opts : List MealOption),
      (searchRun oracle (initSearchState opts)).1 ≤ 2) ∧
    (∀ (oracle : List (ValidationResult × List MealOption))
        (opts : List MealOption),
      ∀ st ∈ (searchRun oracle (initSearchState opts)).2,
        st.refinement_count ≤ 2) ∧
    (∀ (mo : List MealOption) (c : ℕ) (r : ValidationResult),
      (validate_recipes mo c r).refine_dishes ≠ none → c < 2) ∧
    (∀ (mo : List MealOption) (c : ℕ) (r : ValidationResult),
      (validate_recipes mo c r).refinement_count ≠ none →
        (validate_recipes mo c r).refinement_count = some (c + 1) ∧ c < 2) ∧
    (∀ (s : SearchState) (r : ValidationResult),
      s.refine_dishes = none → s.refinement_count = 2 →
      (reindexRecipes r.valid_recipes).length < 3 →
      should_refine (applyValidate s r).refine_dishes = Route.presentOptions) := by
  refine ⟨?_, ?_, ?_, ?_, ?_⟩
  · intro oracle opts
    have := (searchRun_bound oracle (initSearchState opts) rfl (by simp [initSearchState])).1
    simpa [initSearchState] using this
  · intro oracle opts
    exact (searchRun_bound oracle (initSearchState opts) rfl
      (by simp [initSearchState])).2
  · intro mo c r h
    by_contra hc
    rw [validate_recipes] at h
    by_cases h3 : 3 ≤ (reindexRecipes r.valid_recipes).length
    · rw [if_pos h3] at h
      exact h rfl
    · rw [if_neg h3] at h
      rw [if_neg (by intro hx; exact hc hx.1)] at h
      exact h rfl
  · intro mo c r h
    rw [validate_recipes] at h ⊢
    by_cases h3 : 3 ≤ (reindexRecipes r.valid_recipes).length
    · rw [if_pos h3] at h
      exact absurd rfl h
    · rw [if_neg h3] at h ⊢
      by_cases hcd : c < 2 ∧ r.dish_names ≠ []
      · rw [if_pos hcd] at h ⊢
        exact ⟨rfl, hcd.1⟩
      · rw [if_neg hcd] at h
        exact absurd rfl h
  · intro s r hd hc h3
    have hout : (validate_recipes s.meal_options s.refinement_count r).refine_dishes
        = none := by
      rw [validate_recipes, if_neg (by omega : ¬ 3 ≤ (reindexRecipes r.valid_recipes).length)]
      rw [if_neg (by rw [hc]; intro hx; omega)]
    have hs' : (applyValidate s r).refine_dishes = none := by
      simp [applyValidate, hout, hd]
    rw [hs']
    rfl

/-- Witness for `C2_refinement_bound`: clauses applied at concrete inputs. -/
theorem C2_refinement_bound_witness :
    (validate_recipes [] 1 ⟨[], [chars "pad thai"]⟩).refine_dishes ≠ none ∧
    (1 : ℕ) < 2 ∧
    should_refine (applyValidate ⟨[], 2, none⟩ ⟨[], [chars "pad thai"]⟩).refine_dishes
      = Route.presentOptions :=
  ⟨by decide, C2_refinement_bound.2.2.1 [] 1 ⟨[], [chars "pad thai"]⟩ (by decide),
    C2_refinement_bound.2.2.2.2 ⟨[], 2, none⟩ ⟨[], [chars "pad thai"]⟩ rfl rfl
      (by decide)⟩

/-! ## Validation acceptance policy -/

/-- **C7 counterexample**  The claim's no-budget clause says the stage
"proceeds with whatever was validated"; but with zero validated recipes and
a non-empty incoming candidate list the code proceeds with the *incoming*
candidates, not with the (empty) validated list. -/
theorem C7_validation_policy_counterexample :
    reindexRecipes (ValidationResult.mk [] []).valid_recipes = [] ∧
    validate_recipes [⟨1, chars "a", [], chars "u"⟩] 2 ⟨[], []⟩ =
      ⟨[⟨1, chars "a", [], chars "u"⟩], none, none⟩ ∧
    ([⟨1, chars "a", [], chars "u"⟩] : List MealOption) ≠ [] := by
  exact ⟨by decide, by decide, by decide⟩

/-- **C7 amended**  The validation stage's acceptance policy: with at least
3 valid candidates it returns only the validated list (counter and terms
untouched); below the threshold with budget and terms it additionally
increments the counter and sets the (at most 5) refinement terms; below the
threshold with no budget or no terms it proceeds — never raising — with the
validated list when non-empty, and otherwise falls back to the incoming
candidate list. -/
theorem C7_validation_policy_amended (mo : List MealOption) (c : ℕ)
    (r : ValidationResult) :
    (3 ≤ (reindexRecipes r.valid_recipes).length →
      validate_recipes mo c r = ⟨reindexRecipes r.valid_recipes, none, none⟩) ∧
    ((reindexRecipes r.valid_recipes).length < 3 → c < 2 → r.dish_names ≠ [] →
      validate_recipes mo c r = ⟨reindexRecipes r.valid_recipes, some (c + 1),
        some (r.dish_names.take 5)⟩) ∧
    ((reindexRecipes r.valid_recipes).length < 3 → (2 ≤ c ∨ r.dish_names = []) →
      validate_recipes mo c r =
        ⟨if reindexRecipes r.valid_recipes ≠ [] then reindexRecipes r.valid_recipes
          else mo, none, none⟩) := by
  refine ⟨?_, ?_, ?_⟩
  · intro h3
    rw [validate_recipes, if_pos h3]
  · intro h3 hlt hdn
    rw [validate_recipes, if_neg (by omega), if_pos ⟨hlt, hdn⟩]
  · intro h3 hor
    rw [validate_recipes, if_neg (by omega), if_neg (by
      rintro ⟨hlt, hdn⟩
      rcases hor with h | h
      · omega
      · exact hdn h)]

/-- Witness for `C7_validation_policy_amended`: the acceptance clause at a
concrete validation result with three valid recipes. -/
theorem C7_validation_policy_amended_witness :
    3 ≤ (reindexRecipes (ValidationResult.mk
      [⟨chars "a", [], chars "u1"⟩, ⟨chars "b", [], chars "u2"⟩,
        ⟨chars "c", [], chars "u3"⟩] []).valid_recipes).length ∧
    validate_recipes [] 0 (ValidationResult.mk
      [⟨chars "a", [], chars "u1"⟩, ⟨chars "b", [], chars "u2"⟩,
        ⟨chars "c", [], chars "u3"⟩] []) =
      ⟨reindexRecipes (ValidationResult.mk
        [⟨chars "a", [], chars "u1"⟩, ⟨chars "b", [], chars "u2"⟩,
          ⟨chars "c", [], chars "u3"⟩] []).valid_recipes, none, none⟩ :=
  ⟨by decide, (C7_validation_policy_amended [] 0 _).1 (by decide)⟩

/-! ## Character-level lemmas -/

theorem toLower_toNat (c : Char) : (Char.toLower c).toNat =
    if c.toNat ≥ 65 ∧ c.toNat ≤ 90 then c.toNat + 32 else c.toNat := by
  by_cases h : c.toNat ≥ 65 ∧ c.toNat ≤ 90
  · rw [if_pos h]
    have hl : Char.toLower c = Char.ofNat (c.toNat + 32) := by
      unfold Char.toLower
      exact if_pos h
    have hlt : c.toNat + 32 < 55296 := by omega
    rw [hl]
    unfold Char.ofNat
    rw [dif_pos (Or.inl hlt)]
    unfold Char.ofNatAux Char.toNat
    simp [UInt32.toNat, BitVec.toNat_ofNatLt]
  · rw [if_neg h]
    have hl : Char.toLower c = c := by
      unfold Char.toLower
      exact if_neg h
    rw [hl]

theorem pySpace_toLower (c : Char) : pySpace (Char.toLower c) = pySpace c := by
  simp only [pySpace, toLower_toNat]
  by_cases h : c.toNat ≥ 65 ∧ c.toNat ≤ 90
  · rw [if_pos h]
    have e1 : (decide (c.toNat + 32 = 32) || decide (c.toNat + 32 = 9) ||
        decide (c.toNat + 32 = 10) || decide (c.toNat + 32 = 13) ||
        decide (c.toNat + 32 = 11) || decide (c.toNat + 32 = 12)) = false := by
      simp only [Bool.or_eq_false_iff, decide_eq_false_iff_not]
      omega
    have e2 : (decide (c.toNat = 32) || decide (c.toNat = 9) ||
        decide (c.toNat = 10) || decide (c.toNat = 13) ||
        decide (c.toNat = 11) || decide (c.toNat = 12)) = false := by
      simp only [Bool.or_eq_false_iff, decide_eq_false_iff_not]
      omega
    rw [e1, e2]
  · rw [if_neg h]

theorem isDigit_toNat (c : Char) :
    c.isDigit = (decide (48 ≤ c.toNat) && decide (c.toNat ≤ 57)) := by
  simp [Char.isDigit, Char.le_def, UInt32.le_def, BitVec.le_def, Char.toNat,
    UInt32.toNat]

theorem isDigit_toLower (c : Char) : (Char.toLower c).isDigit = c.isDigit := by
  simp only [isDigit_toNat, toLower_toNat]
  by_cases h : c.toNat ≥ 65 ∧ c.toNat ≤ 90
  · rw [if_pos h]
    have e1 : (decide (48 ≤ c.toNat + 32) && decide (c.toNat + 32 ≤ 57)) = false := by
      simp only [Bool.and_eq_false_iff, decide_eq_false_iff_not]
      right
      omega
    have e2 : (decide (48 ≤ c.toNat) && decide (c.toNat ≤ 57)) = false := by
      simp only [Bool.and_eq_false_iff, decide_eq_false_iff_not]
      right
      omega
    rw [e1, e2]
  · rw [if_neg h]

theorem pyLower_any_pySpace (s : Str) :
    (pyLower s).any pySpace = s.any pySpace := by
  rw [pyLower, List.any_map]
  congr 1
  funext c
  exact pySpace_toLower c

theorem isDigitStr_pyLower (s : Str) : isDigitStr (pyLower s) = isDigitStr s := by
  rw [isDigitStr, isDigitStr, pyLower, List.all_map]
  have h1 : (s.map Char.toLower).isEmpty = s.isEmpty := by
    cases s <;> simp
  rw [h1]
  refine congrArg (fun f => !s.isEmpty && List.all s f) ?_
  funext c
  exact isDigit_toLower c

/-! ## Word-splitting lemmas -/

theorem pyWordsAux_spec (s : Str) :
    (∀ c ∈ (pyWordsAux s).1, pySpace c = false ∧ c ∈ s) ∧
    (∀ w ∈ (pyWordsAux s).2, w ≠ [] ∧ ∀ c ∈ w, pySpace c = false ∧ c ∈ s) := by
  induction s with
  | nil => refine ⟨by simp [pyWordsAux], by simp [pyWordsAux]⟩
  | cons x rest ih =>
    obtain ⟨ih1, ih2⟩ := ih
    have hstep : pyWordsAux (x :: rest) =
        if pySpace x then
          ([], if (pyWordsAux rest).1.isEmpty then (pyWordsAux rest).2
            else (pyWordsAux rest).1 :: (pyWordsAux rest).2)
        else (x :: (pyWordsAux rest).1, (pyWordsAux rest).2) := rfl
    rw [hstep]
    by_cases hx : pySpace x
    · rw [if_pos hx]
      refine ⟨by simp, ?_⟩
      intro w hw
      simp only at hw
      by_cases hemp : (pyWordsAux rest).1.isEmpty
      · rw [if_pos hemp] at hw
        rcases ih2 w hw with ⟨hne, hc⟩
        exact ⟨hne, fun c hc' =>
          ⟨(hc c hc').1, List.mem_cons_of_mem _ (hc c hc').2⟩⟩
      · rw [if_neg hemp] at hw
        rcases List.mem_cons.1 hw with rfl | hw'
        · refine ⟨fun he => hemp (by simp [he]), ?_⟩
          intro c hc'
          exact ⟨(ih1 c hc').1, List.mem_cons_of_mem _ (ih1 c hc').2⟩
        · rcases ih2 w hw' with ⟨hne, hc⟩
          exact ⟨hne, fun c hc' =>
            ⟨(hc c hc').1, List.mem_cons_of_mem _ (hc c hc').2⟩⟩
    · rw [if_neg hx]
      constructor
      · intro c hc
        rcases List.mem_cons.1 hc with rfl | hc'
        · exact ⟨by simpa using hx, List.mem_cons_self _ _⟩
        · exact ⟨(ih1 c hc').1, List.mem_cons_of_mem _ (ih1 c hc').2⟩
      · intro w hw
        rcases ih2 w hw with ⟨hne, hc⟩
        exact ⟨hne, fun c hc' =>
          ⟨(hc c hc').1, List.mem_cons_of_mem _ (hc c hc').2⟩⟩

theorem pyWords_spec (s : Str) :
    ∀ w ∈ pyWords s, w ≠ [] ∧ ∀ c ∈ w, pySpace c = false ∧ c ∈ s := by
  intro w hw
  rw [pyWords] at hw
  rcases pyWordsAux_spec s with ⟨h1, h2⟩
  by_cases hemp : (pyWordsAux s).1.isEmpty
  · rw [if_pos hemp] at hw
    exact h2 w hw
  · rw [if_neg hemp] at hw
    rcases List.mem_cons.1 hw with rfl | hw'
    · exact ⟨fun he => hemp (by simp [he]), h1⟩
    · exact h2 w hw'

/-! ## Presentation stage -/

/-- **C3 counterexample**  With zero candidates every resume value reaches
`meal_options[0]`, which raises `IndexError` (modelled as `none`): the stage
does not return a selection for an empty candidate list, contradicting the
claim's "including one with zero candidates". -/
theorem C3_present_options_counterexample :
    present_options [] (chars "1") = none ∧
    present_options [] (chars "ok") = none :=
  ⟨by decide, by decide⟩

/-- **C3 amended**  For every *non-empty* candidate list and every resume
value, `present_options` returns a selection without raising: a resume
value parsing as an integer ordinal within 1..n selects that candidate
(1-based), and every non-numeric or out-of-range value falls back to the
first candidate. -/
theorem C3_present_options_amended (opts : List MealOption) (resume : Str)
    (h : opts ≠ []) :
    (∃ m, present_options opts resume = some m) ∧
    (∀ n : ℤ, pyParseInt resume = some n → 1 ≤ n → n ≤ opts.length →
      present_options opts resume = opts.get? (n - 1).toNat ∧
        (opts.get? (n - 1).toNat).isSome) ∧
    (pyParseInt resume = none → present_options opts resume = opts.get? 0) ∧
    (∀ n : ℤ, pyParseInt resume = some n → ¬ (1 ≤ n ∧ n ≤ opts.length) →
      present_options opts resume = opts.get? 0) := by
  have h0 : (opts.get? 0).isSome := by
    rw [Option.isSome_iff_ne_none, Ne, List.get?_eq_none]
    cases opts with
    | nil => exact absurd rfl h
    | cons a l => simp
  refine ⟨?_, ?_, ?_, ?_⟩
  · cases hp : pyParseInt resume with
    | none =>
      simp only [present_options, hp]
      exact Option.isSome_iff_exists.1 h0
    | some n =>
      simp only [present_options, hp]
      by_cases hr : 1 ≤ n ∧ n ≤ (opts.length : ℤ)
      · rw [if_pos hr]
        refine Option.isSome_iff_exists.1 ?_
        rw [Option.isSome_iff_ne_none, Ne, List.get?_eq_none]
        omega
      · rw [if_neg hr]
        exact Option.isSome_iff_exists.1 h0
  · intro n hp h1 h2
    simp only [present_options, hp]
    rw [if_pos ⟨h1, h2⟩]
    refine ⟨rfl, ?_⟩
    rw [Option.isSome_iff_ne_none, Ne, List.get?_eq_none]
    omega
  · intro hp
    simp only [present_options, hp]
  · intro n hp hr
    simp only [present_options, hp]
    rw [if_neg hr]

/-- Witness for `C3_present_options_amended` on a concrete two-candidate
list with resume value `"2"`. -/
theorem C3_present_options_amended_witness :
    ([⟨1, chars "a", [], chars "u"⟩, ⟨2, chars "b", [], chars "v"⟩]
        : List MealOption) ≠ [] ∧
    ∃ m, present_options
      [⟨1, chars "a", [], chars "u"⟩, ⟨2, chars "b", [], chars "v"⟩]
      (chars "2") = some m :=
  ⟨by decide,
    (C3_present_options_amended
      [⟨1, chars "a", [], chars "u"⟩, ⟨2, chars "b", [], chars "v"⟩]
      (chars "2") (by decide)).1⟩

/-! ## Review stage -/

/-- **C4**  The review stage parses its resume value case-insensitively:
empty or affirmative (`ok`/`yes`) keeps the list; the literal `remove all`
clears it; a `remove` prefix extracts a mixed set of 1-based ordinals and
bare names and drops every item matching by position or by
case-insensitive name; anything else keeps the list unchanged (never an
error).  The spec's example `"remove: 2, garlic"` yields exactly
`[tomato]`. -/
theorem C4_review_parsing (ingredients : List Ingredient) (resume : Str) :
    (pyLower (pyStrip resume) = chars "ok" ∨
        pyLower (pyStrip resume) = chars "yes" ∨ pyLower (pyStrip resume) = [] →
      review_ingredients ingredients resume = ingredients) ∧
    (pyLower (pyStrip resume) = chars "remove all" →
      review_ingredients ingredients resume = []) ∧
    (¬ (pyLower (pyStrip resume) = chars "ok" ∨
        pyLower (pyStrip resume) = chars "yes" ∨
        pyLower (pyStrip resume) = []) →
      pyLower (pyStrip resume) ≠ chars "remove all" →
      listStartsWith (pyLower (pyStrip resume)) (chars "remove") = true →
      review_ingredients ingredients resume =
        filterKeep (removeIndices (pyLower (pyStrip resume)))
          (removeNames (pyLower (pyStrip resume))) ingredients) ∧
    (¬ (pyLower (pyStrip resume) = chars "ok" ∨
        pyLower (pyStrip resume) = chars "yes" ∨
        pyLower (pyStrip resume) = []) →
      listStartsWith (pyLower (pyStrip resume)) (chars "remove") = false →
      review_ingredients ingredients resume = ingredients) ∧
    (∀ (indices : List ℕ) (names : List Str) (idx : ℕ) (item : Ingredient),
      shouldKeep indices names idx item = false ↔
        idx ∈ indices ∨ pyLower item.name ∈ names) ∧
    review_ingredients
      [⟨chars "tomato", chars "1", []⟩, ⟨chars "onion", chars "1", []⟩,
        ⟨chars "garlic", chars "1", []⟩]
      (chars "remove: 2, garlic") = [⟨chars "tomato", chars "1", []⟩] := by
  refine ⟨?_, ?_, ?_, ?_, ?_, by decide⟩
  · intro hu
    by_cases hing : ingredients = []
    · rw [review_ingredients, if_pos hing, hing]
    · rw [review_ingredients, if_neg hing, if_pos hu]
  · intro hu
    by_cases hing : ingredients = []
    · rw [review_ingredients, if_pos hing]
    · rw [review_ingredients, if_neg hing, if_neg (by
        rw [hu]
        decide), if_pos hu]
  · intro hu1 hu2 hu3
    by_cases hing : ingredients = []
    · rw [review_ingredients, if_pos hing, hing, filterKeep]
      simp
    · rw [review_ingredients, if_neg hing, if_neg hu1, if_neg hu2, if_pos hu3]
  · intro hu1 hu2
    by_cases hing : ingredients = []
    · rw [review_ingredients, if_pos hing, hing]
    · have hall : pyLower (pyStrip resume) ≠ chars "remove all" := by
        intro he
        rw [he] at hu2
        exact absurd hu2 (by decide)
      rw [review_ingredients, if_neg hing, if_neg hu1, if_neg hall,
        if_neg (by rw [hu2]; exact Bool.false_ne_true)]
  · intro indices names idx item
    rw [shouldKeep]
    by_cases h1 : idx ∈ indices
    · simp [h1]
    · by_cases h2 : pyLower item.name ∈ names
      · simp [h1, h2]
      · simp [h1, h2]

/-- Witness for `C4_review_parsing`: the affirmative clause applied at a
concrete list and resume value `" OK "`. -/
theorem C4_review_parsing_witness :
    review_ingredients [⟨chars "tomato", chars "1", []⟩] (chars " OK ") =
      [⟨chars "tomato", chars "1", []⟩] :=
  (C4_review_parsing [⟨chars "tomato", chars "1", []⟩] (chars " OK ")).1
    (Or.inl (by decide))

/-! ## Remove-specification tokenization -/

theorem removeNames_no_space (u : Str) :
    ∀ nm ∈ removeNames u, ∀ c ∈ nm, pySpace c = false := by
  intro nm hnm c hc
  rw [removeNames] at hnm
  rcases List.mem_filterMap.1 hnm with ⟨t, ht, hmap⟩
  by_cases hd : isDigitStr t
  · rw [if_pos hd] at hmap
    cases hmap
  · rw [if_neg hd] at hmap
    cases hmap
    rcases List.mem_map.1 hc with ⟨d, hd', rfl⟩
    rw [pySpace_toLower]
    rw [removeTokens] at ht
    exact ((pyWords_spec _ t ht).2 d hd').1

theorem removeNames_not_digit (u : Str) :
    ∀ nm ∈ removeNames u, isDigitStr nm = false := by
  intro nm hnm
  rw [removeNames] at hnm
  rcases List.mem_filterMap.1 hnm with ⟨t, ht, hmap⟩
  by_cases hd : isDigitStr t
  · rw [if_pos hd] at hmap
    cases hmap
  · rw [if_neg hd] at hmap
    cases hmap
    rw [isDigitStr_pyLower]
    exact eq_false_of_ne_true hd

/-- **C10**  In the review stage's `remove` handling the specification is
split into single whitespace/comma-separated tokens, so an ingredient whose
name contains internal whitespace can never be removed by name — only by
its 1-based numeric position — and a purely numeric token always acts as a
position, never as a name. -/
theorem C10_remove_tokenization (ingredients : List Ingredient) (resume : Str)
    (hu1 : ¬ (pyLower (pyStrip resume) = chars "ok" ∨
      pyLower (pyStrip resume) = chars "yes" ∨ pyLower (pyStrip resume) = []))
    (hu2 : pyLower (pyStrip resume) ≠ chars "remove all")
    (hu3 : listStartsWith (pyLower (pyStrip resume)) (chars "remove") = true) :
    review_ingredients ingredients resume =
      filterKeep (removeIndices (pyLower (pyStrip resume)))
        (removeNames (pyLower (pyStrip resume))) ingredients ∧
    (∀ (idx : ℕ) (item : Ingredient), item.name.any pySpace = true →
      shouldKeep (removeIndices (pyLower (pyStrip resume)))
          (removeNames (pyLower (pyStrip resume))) idx item =
        !decide (idx ∈ removeIndices (pyLower (pyStrip resume)))) ∧
    (∀ t ∈ removeTokens (pyLower (pyStrip resume)), isDigitStr t = true →
      strToNat t ∈ removeIndices (pyLower (pyStrip resume)) ∧
        t ∉ removeNames (pyLower (pyStrip resume))) := by
  refine ⟨?_, ?_, ?_⟩
  · by_cases hing : ingredients = []
    · rw [review_ingredients, if_pos hing, hing, filterKeep]
      simp
    · rw [review_ingredients, if_neg hing, if_neg hu1, if_neg hu2, if_pos hu3]
  · intro idx item hsp
    rw [shouldKeep]
    by_cases h1 : idx ∈ removeIndices (pyLower (pyStrip resume))
    · simp [h1]
    · have h2 : pyLower item.name ∉ removeNames (pyLower (pyStrip resume)) := by
        intro hmem
        have hsp' : (pyLower item.name).any pySpace = true := by
          rw [pyLower_any_pySpace]
          exact hsp
        rcases List.any_eq_true.1 hsp' with ⟨c, hc, hcs⟩
        rw [removeNames_no_space _ _ hmem c hc] at hcs
        cases hcs
      simp [h1, h2]
  · intro t ht hd
    constructor
    · rw [removeIndices]
      exact List.mem_filterMap.2 ⟨t, ht, by rw [if_pos hd]⟩
    · intro hmem
      have hnd := removeNames_not_digit _ _ hmem
      rw [hd] at hnd
      cases hnd

/-- Witness for `C10_remove_tokenization`: the name-with-space clause at
the resume value `"remove olive oil"` and the item `olive oil`. -/
theorem C10_remove_tokenization_witness :
    shouldKeep
      (removeIndices (pyLower (pyStrip (chars "remove olive oil"))))
      (removeNames (pyLower (pyStrip (chars "remove olive oil")))) 1
      ⟨chars "olive oil", chars "2", chars "tablespoons"⟩ =
      !decide (1 ∈ removeIndices (pyLower (pyStrip (chars "remove olive oil")))) :=
  (C10_remove_tokenization [⟨chars "olive oil", chars "2", chars "tablespoons"⟩]
    (chars "remove olive oil") (by decide) (by decide) (by decide)).2.1 1
    ⟨chars "olive oil", chars "2", chars "tablespoons"⟩ (by decide)

/-! ## Reminders commit stage: abort paths -/

/-- **C5**  With a non-empty grocery list, a skip token
(`skip`/`no`/`cancel`/empty, case-insensitively after stripping) makes the
commit stage report no items written and perform no store mutation; and if
the chosen destination list does not exist and its creation fails, the
stage likewise reports no items written and performs no further store
mutation. -/
theorem C5_commit_abort_paths (env : RemEnv) (ingredients : List Ingredient)
    (resume : Str) (hing : ingredients ≠ []) :
    (pyLower (pyStrip resume) ∈
        [chars "skip", chars "no", chars "cancel", ([] : Str)] →
      add_to_reminders env ingredients resume = some (false, [])) ∧
    (pyLower (pyStrip resume) ∉
        [chars "skip", chars "no", chars "cancel", ([] : Str)] →
      env.listExists (reminders_list_name env (pyStrip resume)) = false →
      env.createListOk (reminders_list_name env (pyStrip resume)) = false →
      add_to_reminders env ingredients resume = some (false, [])) := by
  constructor
  · intro hskip
    simp only [add_to_reminders, if_neg hing]
    rw [if_pos hskip]
  · intro hskip hex hcr
    simp only [add_to_reminders, if_neg hing]
    rw [if_neg hskip, if_pos (by rw [hex, hcr]; rfl)]

/-- Witness for `C5_commit_abort_paths`: both abort clauses at concrete
environments, grocery lists and resume values. -/
theorem C5_commit_abort_paths_witness :
    add_to_reminders
      ⟨[chars "Groceries"], fun _ => true, fun _ => true, fun _ => [],
        fun _ _ => true⟩
      [⟨chars "egg", chars "1", []⟩] (chars " SKIP ") = some (false, []) ∧
    add_to_reminders
      ⟨[], fun _ => false, fun _ => false, fun _ => [], fun _ _ => false⟩
      [⟨chars "egg", chars "1", []⟩] (chars "Pantry") = some (false, []) :=
  ⟨(C5_commit_abort_paths
      ⟨[chars "Groceries"], fun _ => true, fun _ => true, fun _ => [],
        fun _ _ => true⟩
      [⟨chars "egg", chars "1", []⟩] (chars " SKIP ") (by decide)).1 (by decide),
    (C5_commit_abort_paths
      ⟨[], fun _ => false, fun _ => false, fun _ => [], fun _ _ => false⟩
      [⟨chars "egg", chars "1", []⟩] (chars "Pantry") (by decide)).2 (by decide)
      rfl rfl⟩

/-! ## Interrupt classification priority -/

/-- **C6**  Whenever the suspension payload contains the `existing_lists`
field — the field unique to the destination-commit suspension — the
registry classifies the suspension as the `reminders_prompt` type for every
next-stage name and every instruction text: the unique-field match of the
first registry entry fires before any stage-name or keyword matching of the
other matchers can divert the classification or let it fall through to the
generic fallback. -/
theorem C6_interrupt_priority (next_node : Option Str) (iv : InterruptValue)
    (h : iv.existing_lists.isSome) :
    detect_interrupt next_node (some iv) = InterruptKind.remindersPrompt := by
  simp only [detect_interrupt]
  have hm : remindersPromptMatches next_node (iv.instruction.getD []) (some iv)
      = true := by
    simp [remindersPromptMatches, h]
  rw [if_pos hm]

/-- Witness for `C6_interrupt_priority`: a payload carrying
`existing_lists` together with the meal-selection stage name, a truthy
`options` field and meal-selection keywords still classifies as
`reminders_prompt`. -/
theorem C6_interrupt_priority_witness :
    detect_interrupt (some (chars "present_options"))
      (some ⟨some (chars "Select a meal:"),
        some (chars "Enter a number 1-5 to select a recipe"),
        some [chars "opt"], none, none, some []⟩) =
      InterruptKind.remindersPrompt :=
  C6_interrupt_priority (some (chars "present_options"))
    ⟨some (chars "Select a meal:"),
      some (chars "Enter a number 1-5 to select a recipe"),
      some [chars "opt"], none, none, some []⟩ rfl

/-- Witness for `C9_collate_partition` at a concrete collation that
returns. -/
theorem C9_collate_partition_witness :
    ([⟨chars "milk", chars "1", chars "cup"⟩] : List Ingredient).length +
      ([(chars "eggs (3 large)",
        ⟨chars "eggs", chars "5", chars "large"⟩)] :
          List (Str × Ingredient)).length = 2 ∧
    ([⟨chars "milk", chars "1", chars "cup"⟩] : List Ingredient).Sublist
      [⟨chars "eggs", chars "2", chars "large"⟩,
        ⟨chars "milk", chars "1", chars "cup"⟩] ∧
    (([(chars "eggs (3 large)",
        ⟨chars "eggs", chars "5", chars "large"⟩)] :
          List (Str × Ingredient)).map Prod.fst).Nodup ∧
    ∀ t ∈ ([(chars "eggs (3 large)",
        ⟨chars "eggs", chars "5", chars "large"⟩)] :
          List (Str × Ingredient)).map Prod.fst,
      t ∈ [chars "eggs (3 large)"] :=
  C9_collate_partition [chars "eggs (3 large)"]
    [⟨chars "eggs", chars "2", chars "large"⟩,
      ⟨chars "milk", chars "1", chars "cup"⟩]
    ([⟨chars "milk", chars "1", chars "cup"⟩],
      [(chars "eggs (3 large)", ⟨chars "eggs", chars "5", chars "large"⟩)])
    (by decide)
